import Mathlib

/-!
Shallow embedding of the FastMetro repository core:
the graph construction and correction pipeline (`app/services/metro.py`),
the weighted shortest-path engine (`shortest_path_by_time`), the
proximity-based transfer inference of `scripts/visualize_metro.py`, and the
response schema of `app/schemas.py` / `app/main.py`.

Floating-point minute values of the source are modelled as exact rationals;
Python dicts are modelled as association lists consulted through a
first-match lookup, and the `heapq` priority queue as a multiset of entries
popped at the minimum of the full lexicographic tuple order Python uses.
The Dijkstra `while` loop is fuel-indexed: `DResult.outOfFuel` marks an
unfinished run, and the theorems produce a sufficient fuel explicitly.
-/

namespace FastMetro

set_option maxRecDepth 40000

/-- Edge classes, from `app/models.py` (`class EdgeType`). -/
inductive EdgeType
  | same_line
  | transfer
deriving DecidableEq, Repr

/-- A directed edge record, from `app/models.py` (`class Trip`):
(from_station_id, to_station_id, edge_type). -/
abbrev Trip := String × String × EdgeType

/-- Station record, from `app/models.py` (`class Station`). -/
structure Station where
  id : String
  name : String
  lat : ℚ
  lng : ℚ
  line_id : String
  line_name : String
  line_color : String
  order : Int
deriving DecidableEq, Repr

/-- First-match association-list lookup, modelling Python dict access. -/
def alist_lookup {β : Type} (k : String) : List (String × β) → Option β
  | [] => none
  | (k', v) :: rest => if k = k' then some v else alist_lookup k rest

/-- `STATIONS_ADD` from `app/services/metro.py`: stations absent from the
HH API that the pipeline inserts manually. -/
def STATIONS_ADD : List Station :=
  [{ id := "D2.Pechatniki", name := "Печатники", line_id := "D2",
     line_name := "МЦД-2", line_color := "#E74280",
     lat := 55.68, lng := 37.728338, order := 0 }]

/-- `_apply_stations_add` from `app/services/metro.py`: append each
`STATIONS_ADD` record whose identifier is not already present. -/
def apply_stations_add (stations : List Station) : List Station :=
  STATIONS_ADD.foldl
    (fun acc row =>
      if (acc.map Station.id).contains row.id then acc else acc ++ [row])
    stations

/-- `EDGE_REMOVE` from `app/services/metro.py`. -/
def EDGE_REMOVE : List Trip :=
  [("133.885", "133.468", EdgeType.same_line),
   ("133.470", "133.885", EdgeType.same_line),
   ("133.918", "133.613", EdgeType.same_line),
   ("131.708", "136.904", EdgeType.transfer),
   ("132.743", "132.917", EdgeType.same_line),
   ("132.731", "132.730", EdgeType.same_line),
   ("136.906", "136.907", EdgeType.same_line),
   ("133.612", "136.907", EdgeType.same_line),
   ("133.613", "133.611", EdgeType.same_line),
   ("133.613", "133.610", EdgeType.same_line),
   ("133.612", "133.610", EdgeType.same_line),
   ("10.75", "132.731", EdgeType.same_line),
   ("10.75", "132.731", EdgeType.transfer),
   ("11.44", "9.156", EdgeType.same_line),
   ("11.44", "9.43", EdgeType.same_line),
   ("97.818", "9.156", EdgeType.same_line),
   ("97.818", "9.43", EdgeType.same_line)]

/-- `EDGE_ADD` from `app/services/metro.py`. -/
def EDGE_ADD : List Trip :=
  [("133.918", "133.885", EdgeType.same_line),
   ("133.885", "133.613", EdgeType.same_line),
   ("133.470", "133.468", EdgeType.same_line),
   ("133.613", "133.612", EdgeType.same_line),
   ("133.612", "133.611", EdgeType.same_line),
   ("136.905", "136.907", EdgeType.same_line),
   ("136.905", "136.906", EdgeType.same_line),
   ("1.98", "2.99", EdgeType.transfer),
   ("2.99", "3.100", EdgeType.transfer),
   ("1.4", "3.5", EdgeType.transfer),
   ("1.4", "4.6", EdgeType.transfer),
   ("1.4", "9.7", EdgeType.transfer),
   ("3.5", "4.6", EdgeType.transfer),
   ("3.5", "9.7", EdgeType.transfer),
   ("2.122", "7.124", EdgeType.transfer),
   ("2.122", "9.123", EdgeType.transfer),
   ("7.124", "9.123", EdgeType.transfer),
   ("1.66", "7.67", EdgeType.transfer),
   ("6.50", "7.51", EdgeType.transfer),
   ("6.144", "1.143", EdgeType.transfer),
   ("6.144", "10.175", EdgeType.transfer),
   ("1.143", "10.175", EdgeType.transfer),
   ("8.91", "6.90", EdgeType.transfer),
   ("8.91", "2.89", EdgeType.transfer),
   ("6.90", "2.89", EdgeType.transfer),
   ("8.78", "7.77", EdgeType.transfer),
   ("5.76", "7.77", EdgeType.transfer),
   ("8.78", "5.76", EdgeType.transfer),
   ("3.70", "5.71", EdgeType.transfer),
   ("3.70", "10.72", EdgeType.transfer),
   ("5.71", "10.72", EdgeType.transfer),
   ("1.54", "5.55", EdgeType.transfer),
   ("6.120", "5.119", EdgeType.transfer),
   ("5.82", "9.83", EdgeType.transfer),
   ("2.19", "5.20", EdgeType.transfer),
   ("3.47", "4.48", EdgeType.transfer),
   ("3.47", "5.49", EdgeType.transfer),
   ("4.48", "5.49", EdgeType.transfer),
   ("1.103", "5.104", EdgeType.transfer),
   ("6.94", "5.93", EdgeType.transfer),
   ("5.36", "9.37", EdgeType.transfer),
   ("2.101", "5.102", EdgeType.transfer),
   ("5.58", "7.16", EdgeType.transfer),
   ("9.154", "10.177", EdgeType.transfer),
   ("97.812", "133.607", EdgeType.same_line),
   ("9.128", "97.685", EdgeType.transfer),
   ("10.185", "97.821", EdgeType.transfer),
   ("6.126", "97.822", EdgeType.transfer),
   ("1.134", "97.823", EdgeType.transfer),
   ("3.161", "97.803", EdgeType.transfer),
   ("8.1", "97.826", EdgeType.transfer),
   ("95.526", "97.827", EdgeType.transfer),
   ("98.765", "97.827", EdgeType.transfer),
   ("7.139", "97.828", EdgeType.transfer),
   ("10.109", "97.829", EdgeType.transfer),
   ("2.45", "97.832", EdgeType.transfer),
   ("11.46", "97.832", EdgeType.transfer),
   ("97.818", "9.43", EdgeType.transfer),
   ("97.816", "6.41", EdgeType.transfer),
   ("97.815", "137.921", EdgeType.transfer),
   ("1.118", "97.814", EdgeType.transfer),
   ("133.607", "97.813", EdgeType.transfer),
   ("3.69", "97.810", EdgeType.transfer),
   ("4.471", "97.810", EdgeType.transfer),
   ("97.601", "7.114", EdgeType.transfer),
   ("97.601", "95.539", EdgeType.transfer),
   ("97.601", "97.806", EdgeType.same_line),
   ("97.599", "2.34", EdgeType.transfer),
   ("9.108", "10.548", EdgeType.transfer),
   ("2.57", "10.186", EdgeType.transfer),
   ("7.62", "10.63", EdgeType.transfer),
   ("8.112", "10.113", EdgeType.transfer),
   ("3.173", "133.470", EdgeType.transfer),
   ("3.69", "4.471", EdgeType.transfer),
   ("133.468", "4.172", EdgeType.transfer),
   ("95.537", "133.468", EdgeType.transfer),
   ("95.537", "4.172", EdgeType.transfer),
   ("9.170", "12.171", EdgeType.transfer),
   ("6.23", "12.467", EdgeType.transfer),
   ("7.464", "98.675", EdgeType.transfer),
   ("95.531", "137.964", EdgeType.transfer),
   ("95.533", "137.963", EdgeType.transfer),
   ("6.74", "95.534", EdgeType.transfer),
   ("2.30", "95.543", EdgeType.transfer),
   ("6.24", "95.517", EdgeType.transfer),
   ("9.28", "95.516", EdgeType.transfer),
   ("1.155", "95.521", EdgeType.transfer),
   ("1.148", "95.520", EdgeType.transfer),
   ("8.158", "95.524", EdgeType.transfer),
   ("10.39", "95.529", EdgeType.transfer),
   ("2.2", "95.530", EdgeType.transfer),
   ("1.135", "95.535", EdgeType.transfer),
   ("9.85", "95.532", EdgeType.transfer),
   ("4.73", "95.536", EdgeType.transfer),
   ("95.538", "97.602", EdgeType.transfer),
   ("95.541", "7.95", EdgeType.transfer),
   ("3.105", "95.522", EdgeType.transfer),
   ("95.540", "7.95", EdgeType.transfer),
   ("131.801", "3.176", EdgeType.transfer),
   ("131.703", "4.151", EdgeType.transfer),
   ("131.702", "4.172", EdgeType.transfer),
   ("131.702", "133.468", EdgeType.transfer),
   ("131.701", "7.18", EdgeType.transfer),
   ("131.698", "9.141", EdgeType.transfer),
   ("131.697", "10.596", EdgeType.transfer),
   ("131.697", "95.515", EdgeType.transfer),
   ("131.694", "10.834", EdgeType.transfer),
   ("131.700", "2.19", EdgeType.transfer),
   ("131.700", "5.20", EdgeType.transfer),
   ("131.699", "9.128", EdgeType.transfer),
   ("131.699", "97.685", EdgeType.transfer),
   ("131.704", "3.69", EdgeType.transfer),
   ("131.704", "4.471", EdgeType.transfer),
   ("131.704", "97.810", EdgeType.transfer),
   ("132.717", "3.182", EdgeType.transfer),
   ("132.718", "7.145", EdgeType.transfer),
   ("132.720", "2.30", EdgeType.transfer),
   ("132.720", "95.542", EdgeType.transfer),
   ("132.723", "9.35", EdgeType.transfer),
   ("132.725", "1.54", EdgeType.transfer),
   ("132.725", "5.55", EdgeType.transfer),
   ("132.726", "3.70", EdgeType.transfer),
   ("132.726", "5.71", EdgeType.transfer),
   ("132.726", "10.72", EdgeType.transfer),
   ("132.727", "10.113", EdgeType.transfer),
   ("132.727", "8.112", EdgeType.transfer),
   ("132.735", "2.153", EdgeType.transfer),
   ("132.724", "6.126", EdgeType.transfer),
   ("132.724", "97.822", EdgeType.transfer),
   ("132.917", "10.185", EdgeType.transfer),
   ("132.917", "97.821", EdgeType.transfer),
   ("132.731", "D2.Pechatniki", EdgeType.same_line),
   ("D2.Pechatniki", "132.730", EdgeType.same_line),
   ("135.845", "2.558", EdgeType.transfer),
   ("135.848", "95.545", EdgeType.transfer),
   ("135.850", "10.546", EdgeType.transfer),
   ("135.852", "1.134", EdgeType.transfer),
   ("135.852", "97.823", EdgeType.transfer),
   ("135.853", "3.161", EdgeType.transfer),
   ("135.853", "97.803", EdgeType.transfer),
   ("135.855", "8.1", EdgeType.transfer),
   ("135.855", "97.826", EdgeType.transfer),
   ("135.856", "95.525", EdgeType.transfer),
   ("135.859", "7.127", EdgeType.transfer),
   ("135.860", "7.33", EdgeType.transfer),
   ("135.861", "98.675", EdgeType.transfer),
   ("135.849", "9.108", EdgeType.transfer),
   ("135.849", "10.548", EdgeType.transfer),
   ("135.851", "6.126", EdgeType.transfer),
   ("135.851", "97.822", EdgeType.transfer),
   ("136.902", "97.812", EdgeType.transfer),
   ("136.900", "133.555", EdgeType.transfer),
   ("136.899", "3.173", EdgeType.transfer),
   ("136.899", "133.470", EdgeType.transfer),
   ("136.888", "8.112", EdgeType.transfer),
   ("136.888", "10.113", EdgeType.transfer),
   ("136.886", "135.857", EdgeType.transfer),
   ("136.883", "8.88", EdgeType.transfer),
   ("136.882", "8.189", EdgeType.transfer),
   ("136.887", "97.827", EdgeType.transfer),
   ("136.887", "98.765", EdgeType.transfer),
   ("136.887", "95.526", EdgeType.transfer),
   ("136.889", "3.70", EdgeType.transfer),
   ("136.889", "5.71", EdgeType.transfer),
   ("136.889", "10.72", EdgeType.transfer),
   ("136.890", "1.54", EdgeType.transfer),
   ("136.890", "5.55", EdgeType.transfer),
   ("136.891", "6.126", EdgeType.transfer),
   ("136.891", "97.822", EdgeType.transfer),
   ("136.892", "10.185", EdgeType.transfer),
   ("136.892", "97.821", EdgeType.transfer),
   ("136.893", "9.128", EdgeType.transfer),
   ("136.893", "97.685", EdgeType.transfer),
   ("136.894", "2.19", EdgeType.transfer),
   ("136.894", "5.20", EdgeType.transfer),
   ("136.897", "4.172", EdgeType.transfer),
   ("136.897", "133.468", EdgeType.transfer),
   ("136.898", "4.73", EdgeType.transfer),
   ("136.898", "95.536", EdgeType.transfer),
   ("D2.Pechatniki", "10.109", EdgeType.transfer),
   ("D2.Pechatniki", "97.829", EdgeType.transfer)]

/-- The symmetric removal set built at the top of `_apply_edge_patches`:
both `(a, b, et)` and `(b, a, et)` for every catalog entry.  The Python
`set` is modelled as a list consulted only through membership. -/
def remove_set (edge_remove : List Trip) : List Trip :=
  edge_remove.flatMap (fun e => [(e.1, e.2.1, e.2.2), (e.2.1, e.1, e.2.2)])

/-- The edges appended at the bottom of `_apply_edge_patches`: both
directions of every `EDGE_ADD` entry, in iteration order. -/
def add_edges (edge_add : List Trip) : List Trip :=
  edge_add.flatMap (fun e => [(e.1, e.2.1, e.2.2), (e.2.1, e.1, e.2.2)])

/-- `_apply_edge_patches` from `app/services/metro.py`, with the two global
patch catalogs generalized to parameters (the source reads the module-level
`EDGE_REMOVE` / `EDGE_ADD` tables directly; `apply_edge_patches` below
instantiates them).  The `stations` argument is kept because the source
takes it, though the source never reads it. -/
def apply_edge_patches_with (edge_remove edge_add : List Trip)
    (stations : List Station) (trips : List Trip) : List Trip :=
  if edge_remove = [] ∧ edge_add = [] then trips
  else
    (trips.filter (fun t => decide (t ∉ remove_set edge_remove)))
      ++ add_edges edge_add

/-- `_apply_edge_patches` with the repository's fixed catalogs. -/
def apply_edge_patches (stations : List Station) (trips : List Trip) :
    List Trip :=
  apply_edge_patches_with EDGE_REMOVE EDGE_ADD stations trips

/-- One station entry of the raw HH feed (`line["stations"]` element). -/
structure FeedStation where
  id : String
  name : String
  lat : ℚ
  lng : ℚ
  order : Int
deriving DecidableEq, Repr

/-- One line block of the raw HH feed (`data["lines"]` element). -/
structure FeedLine where
  id : String
  name : String
  hex_color : String
  stations : List FeedStation
deriving DecidableEq, Repr

/-- The same-line edge generation of `enrich_database`: for every two
consecutive stations of a line, one forward and one reverse
`same_line` trip. -/
def consecutive_trips : List FeedStation → List Trip
  | a :: b :: rest =>
      (a.id, b.id, EdgeType.same_line) :: (b.id, a.id, EdgeType.same_line)
        :: consecutive_trips (b :: rest)
  | _ => []

/-- All feed-derived same-line trips, lines in feed order. -/
def feed_same_line_trips (lines : List FeedLine) : List Trip :=
  lines.flatMap (fun l => consecutive_trips l.stations)

/-- The edge part of the `enrich_database` pipeline: feed-derived segment
edges followed by the manual edge patches. -/
def enrich_trip_pipeline (stations : List Station) (lines : List FeedLine) :
    List Trip :=
  apply_edge_patches stations (feed_same_line_trips lines)

/-- Adjacency structure built by `build_graph`:
station_id -> list of (neighbor_id, is_transfer). -/
abbrev Adjacency := List (String × List (String × Bool))

def station_ids (stations : List Station) : List String :=
  stations.map Station.id

/-- One iteration of the `build_graph` trip loop:
`graph[t.from_station_id].append((t.to_station_id, is_transfer))`, which
raises `KeyError` (modelled as `Except.error`) when the from-station is
not a key. -/
def build_graph_step (acc : Except String Adjacency) (t : Trip) :
    Except String Adjacency :=
  match acc with
  | Except.error e => Except.error e
  | Except.ok g =>
      match alist_lookup t.1 g with
      | none => Except.error t.1
      | some _ =>
          Except.ok (g.map (fun p =>
            if p.1 = t.1 then
              (p.1, p.2 ++ [(t.2.1, decide (t.2.2 = EdgeType.transfer))])
            else p))

/-- `build_graph` from `app/services/metro.py`.  The initial dict maps
every (deduplicated) station id to an empty list; then the trip loop runs
over `build_graph_step`. -/
def build_graph (stations : List Station) (trips : List Trip) :
    Except String Adjacency :=
  trips.foldl build_graph_step
    (Except.ok ((station_ids stations).dedup.map
      (fun i => (i, ([] : List (String × Bool))))))

/-! ### Proximity inference (`scripts/visualize_metro.py`) -/

/-- Station dict built by `build_stations_and_edges`. -/
structure VStation where
  id : String
  name : String
  lat : ℚ
  lng : ℚ
  line_id : String
  line_name : String
  hex_color : String
deriving DecidableEq, Repr

/-- An edge of the visualizer: (a_id, b_id, is_transfer). -/
abbrev VEdge := String × String × Bool

/-- `TRANSFER_THRESHOLD` from `scripts/visualize_metro.py`. -/
def TRANSFER_THRESHOLD : ℚ := 0.001

/-- The squared planar degree-space distance of `distance_deg`.  The source
computes `math.sqrt ((lat1-lat2)^2 + (lng1-lng2)^2)` over floats; since
`Real.sqrt x < t` iff `x < t^2` for nonnegative `t`, the threshold test is
embedded square-free over exact rationals. -/
def distance_deg_sq (lat1 lng1 lat2 lng2 : ℚ) : ℚ :=
  (lat1 - lat2) ^ 2 + (lng1 - lng2) ^ 2

/-- The proximity test `distance_deg(...) < TRANSFER_THRESHOLD` of the
transfer loop, in square-free form. -/
def transfer_close (a b : VStation) : Prop :=
  distance_deg_sq a.lat a.lng b.lat b.lng < TRANSFER_THRESHOLD ^ 2

instance (a b : VStation) : Decidable (transfer_close a b) := by
  unfold transfer_close
  infer_instance

/-- The body of the transfer double loop for one ordered pair `(a, b)` with
`a` before `b`: skip same-line pairs, emit the symmetric transfer pair when
within the threshold. -/
def vpair_edges (a b : VStation) : List VEdge :=
  if a.line_id = b.line_id then []
  else if decide (transfer_close a b) then
    [(a.id, b.id, true), (b.id, a.id, true)]
  else []

/-- The transfer-discovery double loop of `build_stations_and_edges`:
`for i, a in enumerate(stations): for b in stations[i+1:]`. -/
def transfer_edges : List VStation → List VEdge
  | [] => []
  | a :: rest => rest.flatMap (vpair_edges a) ++ transfer_edges rest

/-- The segment edges of `build_stations_and_edges`: consecutive stations of
each line, both directions, flagged non-transfer. -/
def vconsecutive_edges : List FeedStation → List VEdge
  | a :: b :: rest =>
      (a.id, b.id, false) :: (b.id, a.id, false)
        :: vconsecutive_edges (b :: rest)
  | _ => []

/-- The station list built by `build_stations_and_edges`. -/
def vstations (lines : List FeedLine) : List VStation :=
  lines.flatMap (fun l => l.stations.map (fun s =>
    { id := s.id, name := s.name, lat := s.lat, lng := s.lng,
      line_id := l.id, line_name := l.name, hex_color := l.hex_color }))

/-- The full edge list of `build_stations_and_edges`: per-line segment
edges, then proximity transfer edges. -/
def build_stations_and_edges (lines : List FeedLine) :
    List VStation × List VEdge :=
  (vstations lines,
   lines.flatMap (fun l => vconsecutive_edges l.stations)
     ++ transfer_edges (vstations lines))

/-! ### Response schema (`app/schemas.py` and `app/main.py`) -/

/-- The declared fields of `schemas.PathResponse`; none has a default, so
pydantic requires every one of them at construction. -/
def pathresponse_required_fields : List String :=
  ["from_station", "to_station", "path", "total_steps", "stations_count",
   "transfers_count", "total_time_minutes"]

/-- The keyword arguments `main.shortest_path` passes when it constructs
`PathResponse` (lines 81-96 of `app/main.py`). -/
def shortest_path_response_kwargs : List String :=
  ["from_station", "to_station", "path", "total_steps", "stations_count",
   "total_time_minutes"]

/-- Pydantic's required-field check: the declared fields the constructor
call does not supply.  A nonempty result means the construction raises a
`ValidationError`. -/
def pydantic_missing_fields (required provided : List String) :
    List String :=
  required.filter (fun f => decide (f ∉ provided))

/-! ### Shortest-path engine (`app/services/metro.py`) -/

/-- `settings.minutes_per_segment` default from `app/config.py`. -/
def minutes_per_segment : ℚ := 3

/-- `settings.minutes_per_transfer` default from `app/config.py`. -/
def minutes_per_transfer : ℚ := 6

/-- `_edge_minutes`, with the two configured constants as parameters. -/
def edge_minutes (ws wt : ℚ) (is_transfer : Bool) : ℚ :=
  if is_transfer then wt else ws

/-- The encoded path of the engine:
(station_id, is_transfer_into_this_station) from origin to current node. -/
abbrev EPath := List (String × Bool)

/-- A heap entry `(total_time, node_id, path)` as pushed by the source. -/
abbrev Entry := ℚ × String × EPath

/-- The `best` dict: best-known total time per node. -/
abbrev Best := List (String × ℚ)

/-- Python's `False < True` on booleans. -/
def bool_lt (a b : Bool) : Bool := !a && b

/-- Python tuple comparison on a path element `(station_id, flag)`. -/
def pstep_lt (x y : String × Bool) : Bool :=
  decide (x.1 < y.1) || (decide (x.1 = y.1) && bool_lt x.2 y.2)

/-- Python list comparison (lexicographic, non-strict) on paths. -/
def path_le : EPath → EPath → Bool
  | [], _ => true
  | _ :: _, [] => false
  | x :: xs, y :: ys => pstep_lt x y || (decide (x = y) && path_le xs ys)

/-- The total order `heapq` uses on entries: Python tuple comparison on
`(total_time, node_id, path)`. -/
def entry_le (a b : Entry) : Bool :=
  decide (a.1 < b.1) ||
    (decide (a.1 = b.1) &&
      (decide (a.2.1 < b.2.1) ||
        (decide (a.2.1 = b.2.1) && path_le a.2.2 b.2.2)))

/-- `heapq.heappop`: remove the least entry under `entry_le`.  The binary
heap layout is immaterial because the order is total: the heap is a
multiset and pop returns its minimum. -/
def pop_min : List Entry → Option (Entry × List Entry)
  | [] => none
  | e :: es =>
      match pop_min es with
      | none => some (e, [])
      | some (m, rest) =>
          if entry_le e m then some (e, es) else some (m, e :: rest)

/-- Result of a fuel-indexed run of the Dijkstra loop.  `found`/`notFound`
are the source's `(path, total)` / `None`; `keyError` models the Python
`KeyError` on `graph[cur]` for a node missing from the dict; `outOfFuel`
means the given fuel did not cover the run. -/
inductive DResult
  | found : EPath → ℚ → DResult
  | notFound : DResult
  | keyError : String → DResult
  | outOfFuel : DResult
deriving DecidableEq, Repr

/-- One neighbor relaxation from the inner `for` loop: weight by class,
push and update `best` when the candidate strictly improves. -/
def relax_step (ws wt t : ℚ) (p : EPath) (acc : Best × List Entry)
    (nb : String × Bool) : Best × List Entry :=
  let tn := t + edge_minutes ws wt nb.2
  match alist_lookup nb.1 acc.1 with
  | some b =>
      if tn < b then
        ((nb.1, tn) :: acc.1, (tn, nb.1, p ++ [nb]) :: acc.2)
      else acc
  | none => ((nb.1, tn) :: acc.1, (tn, nb.1, p ++ [nb]) :: acc.2)

/-- The `while heap:` loop of `shortest_path_by_time`, fuel-indexed. -/
def dijkstra_loop (ws wt : ℚ) (g : Adjacency) (end_id : String) :
    Nat → Best → List Entry → DResult
  | 0, _, _ => DResult.outOfFuel
  | fuel + 1, best, heap =>
      match pop_min heap with
      | none => DResult.notFound
      | some ((t, cur, p), rest) =>
          if cur = end_id then DResult.found p t
          else if (match alist_lookup cur best with
                   | some b => decide (b < t)
                   | none => false) then
            dijkstra_loop ws wt g end_id fuel best rest
          else
            match alist_lookup cur g with
            | none => DResult.keyError cur
            | some adj =>
                let st := adj.foldl (relax_step ws wt t p) (best, rest)
                dijkstra_loop ws wt g end_id fuel st.1 st.2

/-- `shortest_path_by_time` from `app/services/metro.py` (the
`station_by_id` argument of the source is unused by the function and
omitted).  Missing endpoints return not-found; identical endpoints return
the single-station zero-cost path; otherwise the loop runs with the given
fuel from `best = {start: 0}` and a single initial heap entry. -/
def shortest_path_by_time (ws wt : ℚ) (g : Adjacency)
    (start_id end_id : String) (fuel : Nat) : DResult :=
  if (alist_lookup start_id g).isNone ∨ (alist_lookup end_id g).isNone then
    DResult.notFound
  else if start_id = end_id then DResult.found [(start_id, false)] 0
  else
    dijkstra_loop ws wt g end_id fuel [(start_id, 0)]
      [(0, start_id, [(start_id, false)])]

/-! ### Paths, costs and graph well-formedness -/

/-- The node reached by walking `rest` from `u`: the id of the last path
element, or `u` itself when `rest` is empty. -/
def last_node (u : String) (rest : EPath) : String :=
  rest.foldl (fun _ s => s.1) u

/-- `ValidFrom g u rest`: every step of `rest`, starting at `u`, follows an
edge of the adjacency structure, with the recorded transfer flag. -/
def ValidFrom (g : Adjacency) : String → EPath → Prop
  | _, [] => True
  | u, s :: rest =>
      (∃ adj, alist_lookup u g = some adj ∧ s ∈ adj) ∧ ValidFrom g s.1 rest

/-- `IsPath g p a b`: `p` is an encoded walk of `g` from `a` to `b` — it
starts with `(a, false)`, each later element enters its station along a
recorded edge of the graph, and the last station is `b`. -/
def IsPath (g : Adjacency) (p : EPath) (a b : String) : Prop :=
  ∃ rest, p = (a, false) :: rest ∧ ValidFrom g a rest ∧ last_node a rest = b

/-- Cost of the non-origin steps of a walk suffix. -/
def tail_cost (ws wt : ℚ) (rest : EPath) : ℚ :=
  (rest.map (fun s => edge_minutes ws wt s.2)).sum

/-- Total cost of an encoded path: per-class cost of every element but the
origin. -/
def path_cost (ws wt : ℚ) (p : EPath) : ℚ :=
  tail_cost ws wt p.tail

/-- Number of transfer edges used by an encoded path (`True` flags beyond
the origin). -/
def transfer_count (p : EPath) : Nat :=
  p.tail.countP (fun s => s.2)

/-- A well-formed adjacency structure: every neighbor mentioned in some
adjacency list is itself a key.  `build_graph` output over a
foreign-key-consistent trip set has this shape; `shortest_path_by_time`
evaluates `graph[cur]` on popped nodes, so the claims about it quantify
over such graphs. -/
def Closed (g : Adjacency) : Prop :=
  ∀ p ∈ g, ∀ nb ∈ p.2, (alist_lookup nb.1 g).isSome

/-! ### Invariants and measures used in the proofs -/

/-- Every heap entry carries a genuine walk from the origin to its node,
with the recorded total equal to the walk's cost. -/
def SoundHeap (ws wt : ℚ) (g : Adjacency) (start_id : String)
    (heap : List Entry) : Prop :=
  ∀ e ∈ heap, IsPath g e.2.2 start_id e.2.1 ∧ path_cost ws wt e.2.2 = e.1

/-- Loop invariant of `dijkstra_loop`, with the implicitly settled node set
`S` carried as a ghost parameter (the source tracks it only through the
lazy-deletion staleness check).  `entries` is entry soundness; `settled`
says every ghost-settled node has been fully relaxed; `fresh` says every
recorded best value either belongs to a settled node or is backed by a live
heap entry with exactly that cost; `settledMin` says settled best values
are below every queued cost. -/
structure GINV (ws wt : ℚ) (g : Adjacency) (start_id end_id : String)
    (S : Set String) (best : Best) (heap : List Entry) : Prop where
  entries : ∀ e ∈ heap, IsPath g e.2.2 start_id e.2.1 ∧
    path_cost ws wt e.2.2 = e.1 ∧
    (∃ b, alist_lookup e.2.1 best = some b ∧ b ≤ e.1) ∧
    (alist_lookup e.2.1 g).isSome
  settled : ∀ u ∈ S, ∃ bu, alist_lookup u best = some bu ∧
    ∃ adj, alist_lookup u g = some adj ∧
      ∀ nb ∈ adj, ∃ bv, alist_lookup nb.1 best = some bv ∧
        bv ≤ bu + edge_minutes ws wt nb.2
  fresh : ∀ v bv, alist_lookup v best = some bv →
    v ∈ S ∨ ∃ e ∈ heap, e.2.1 = v ∧ e.1 = bv
  settledMin : ∀ u ∈ S, ∀ e ∈ heap, ∃ bu,
    alist_lookup u best = some bu ∧ bu ≤ e.1
  endFree : end_id ∉ S
  startLe : ∃ bs, alist_lookup start_id best = some bs ∧ bs ≤ 0
  keysIn : ∀ v bv, alist_lookup v best = some bv →
    (alist_lookup v g).isSome

/-- Invariant of the inner relaxation fold, relating the accumulator to the
pre-pop state `best` and the popped cost `t`; `S'` is the settled set after
ghost-settling the expanded node. -/
structure RInv (ws wt : ℚ) (g : Adjacency) (start_id : String)
    (S' : Set String) (best : Best) (t : ℚ)
    (acc : Best × List Entry) : Prop where
  entries : ∀ e ∈ acc.2, IsPath g e.2.2 start_id e.2.1 ∧
    path_cost ws wt e.2.2 = e.1 ∧
    (∃ b, alist_lookup e.2.1 acc.1 = some b ∧ b ≤ e.1) ∧
    (alist_lookup e.2.1 g).isSome
  protect : ∀ v b, alist_lookup v best = some b → b ≤ t →
    alist_lookup v acc.1 = some b
  mono : ∀ v b, alist_lookup v best = some b →
    ∃ b', alist_lookup v acc.1 = some b' ∧ b' ≤ b
  fresh : ∀ v bv, alist_lookup v acc.1 = some bv →
    v ∈ S' ∨ ∃ e ∈ acc.2, e.2.1 = v ∧ e.1 = bv
  smin : ∀ u ∈ S', ∀ e ∈ acc.2, ∃ bu,
    alist_lookup u acc.1 = some bu ∧ bu ≤ e.1
  sbound : ∀ u ∈ S', ∃ bu, alist_lookup u acc.1 = some bu ∧ bu ≤ t
  keysIn : ∀ v bv, alist_lookup v acc.1 = some bv →
    (alist_lookup v g).isSome

/-- What each loop outcome guarantees: a `found` result is a genuine walk
whose cost no path of the graph beats; `notFound` means no path exists;
`keyError` cannot happen; fuel exhaustion claims nothing. -/
def GoodResult (ws wt : ℚ) (g : Adjacency) (start_id end_id : String) :
    DResult → Prop
  | DResult.found p t => IsPath g p start_id end_id ∧
      path_cost ws wt p = t ∧
      ∀ π, IsPath g π start_id end_id → t ≤ path_cost ws wt π
  | DResult.notFound => ∀ π, ¬ IsPath g π start_id end_id
  | DResult.keyError _ => False
  | DResult.outOfFuel => True

/-- Common denominator of the two configured weights. -/
def dden (ws wt : ℚ) : ℕ := ws.den * wt.den

/-- `q` is a nonnegative multiple of `1 / dden`. -/
def InD (ws wt q : ℚ) : Prop :=
  ∃ n : ℕ, q * ((dden ws wt : ℕ) : ℚ) = (n : ℚ)

/-- Natural-number rank of a grid value. -/
def rankQ (ws wt q : ℚ) : ℕ := (q * ((dden ws wt : ℕ) : ℚ)).num.toNat

/-- All recorded best values lie on the weight grid. -/
def BestInD (ws wt : ℚ) (best : Best) : Prop :=
  ∀ v b, alist_lookup v best = some b → InD ws wt b

/-- Keys of the graph dict. -/
def gkeysF (g : Adjacency) : Finset String := (g.map Prod.fst).toFinset

/-- Keys of the best dict. -/
def bkeysF (best : Best) : Finset String := (best.map Prod.fst).toFinset

/-- First measure: graph keys not yet recorded in `best`. -/
def meas1 (g : Adjacency) (best : Best) : ℕ :=
  ((gkeysF g) \ (bkeysF best)).card

/-- Second measure: summed ranks of the recorded best values. -/
def meas2 (ws wt : ℚ) (best : Best) : ℕ :=
  Finset.sum (bkeysF best)
    (fun v => rankQ ws wt ((alist_lookup v best).getD 0))

/-- Strict decrease of the (meas1, meas2) lexicographic pair. -/
def MLt (ws wt : ℚ) (g : Adjacency) (best' best : Best) : Prop :=
  meas1 g best' < meas1 g best ∨
    (meas1 g best' = meas1 g best ∧ meas2 ws wt best' < meas2 ws wt best)

instance (g : Adjacency) : Decidable (Closed g) := by
  unfold Closed
  infer_instance

/-! ### Association-list and fold helpers -/

theorem alist_lookup_mem {β : Type} {k : String} {v : β}
    {l : List (String × β)} (h : alist_lookup k l = some v) : (k, v) ∈ l := by
  induction l with
  | nil => simp [alist_lookup] at h
  | cons p rest ih =>
      obtain ⟨k', v'⟩ := p
      by_cases hk : k = k'
      · subst hk
        simp [alist_lookup] at h
        simp [h]
      · simp [alist_lookup, hk] at h
        exact List.mem_cons_of_mem _ (ih h)

theorem alist_lookup_eq_none {β : Type} {k : String}
    {l : List (String × β)} :
    alist_lookup k l = none ↔ k ∉ l.map Prod.fst := by
  induction l with
  | nil => simp [alist_lookup]
  | cons p rest ih =>
      obtain ⟨k', v'⟩ := p
      by_cases hk : k = k'
      · subst hk
        simp [alist_lookup]
      · simp [alist_lookup, hk, ih]

theorem alist_lookup_isSome_of_mem {β : Type} {k : String} {v : β}
    {l : List (String × β)} (h : (k, v) ∈ l) :
    (alist_lookup k l).isSome := by
  induction l with
  | nil => simp at h
  | cons p rest ih =>
      rcases List.mem_cons.1 h with h1 | h1
      · subst h1
        simp [alist_lookup]
      · obtain ⟨k', v'⟩ := p
        by_cases hk : k = k'
        · simp [alist_lookup, hk]
        · simpa [alist_lookup, hk] using ih h1

theorem alist_lookup_cons_self {β : Type} {k : String} {v : β}
    {l : List (String × β)} : alist_lookup k ((k, v) :: l) = some v := by
  simp [alist_lookup]

theorem alist_lookup_cons_ne {β : Type} {k k' : String} {v : β}
    {l : List (String × β)} (h : k ≠ k') :
    alist_lookup k ((k', v) :: l) = alist_lookup k l := by
  simp [alist_lookup, h]

theorem foldl_rec {α β : Type} (f : β → α → β) (P : β → Prop) (l : List α)
    (hstep : ∀ b, ∀ a ∈ l, P b → P (f b a)) :
    ∀ b₀, P b₀ → P (l.foldl f b₀) := by
  induction l with
  | nil => intro b₀ h; simpa using h
  | cons x xs ih =>
      intro b₀ h
      simp only [List.foldl_cons]
      exact ih (fun b a ha hb => hstep b a (List.mem_cons_of_mem _ ha) hb)
        (f b₀ x) (hstep b₀ x (List.mem_cons_self _ _) h)

theorem foldl_establish {α β : Type} (f : β → α → β) (P : β → Prop)
    (R : α → β → Prop) (l : List α)
    (hP : ∀ b, ∀ a ∈ l, P b → P (f b a))
    (hEst : ∀ b, ∀ a ∈ l, P b → R a (f b a))
    (hKeep : ∀ b a, ∀ a' ∈ l, P b → R a b → R a (f b a')) :
    ∀ b₀, P b₀ → ∀ a ∈ l, R a (l.foldl f b₀) := by
  induction l with
  | nil => intro b₀ _ a ha; simp at ha
  | cons x xs ih =>
      intro b₀ h₀ a ha
      simp only [List.foldl_cons]
      rcases List.mem_cons.1 ha with rfl | ha'
      · have hRx : R a (f b₀ a) := hEst b₀ a (List.mem_cons_self _ _) h₀
        have : (P (xs.foldl f (f b₀ a)) ∧ R a (xs.foldl f (f b₀ a))) := by
          refine foldl_rec f (fun b => P b ∧ R a b) xs ?_ (f b₀ a)
            ⟨hP b₀ a (List.mem_cons_self _ _) h₀, hRx⟩
          intro b a' ha' hb
          exact ⟨hP b a' (List.mem_cons_of_mem _ ha') hb.1,
            hKeep b a a' (List.mem_cons_of_mem _ ha') hb.1 hb.2⟩
        exact this.2
      · exact ih (fun b a' ha'' hb => hP b a' (List.mem_cons_of_mem _ ha'') hb)
          (fun b a' ha'' hb => hEst b a' (List.mem_cons_of_mem _ ha'') hb)
          (fun b a a' ha'' hb hr => hKeep b a a' (List.mem_cons_of_mem _ ha'') hb hr)
          (f b₀ x) (hP b₀ x (List.mem_cons_self _ _) h₀) a ha'

/-! ### `pop_min` facts -/

theorem entry_le_fst {a b : Entry} (h : entry_le a b = true) : a.1 ≤ b.1 := by
  simp only [entry_le, Bool.or_eq_true, Bool.and_eq_true, decide_eq_true_eq]
    at h
  rcases h with h | ⟨h, _⟩
  · exact le_of_lt h
  · exact le_of_eq h

theorem entry_not_le_fst {a b : Entry} (h : entry_le a b = false) :
    b.1 ≤ a.1 := by
  by_contra hlt
  push_neg at hlt
  simp [entry_le, le_of_lt, hlt] at h

theorem pop_min_eq_none {l : List Entry} : pop_min l = none ↔ l = [] := by
  cases l with
  | nil => simp [pop_min]
  | cons e es =>
      simp only [pop_min]
      cases h : pop_min es with
      | none => simp
      | some pr =>
          obtain ⟨m, rest⟩ := pr
          by_cases hle : entry_le e m <;> simp [hle]

theorem pop_min_perm {l : List Entry} {e : Entry} {rest : List Entry}
    (h : pop_min l = some (e, rest)) : l.Perm (e :: rest) := by
  induction l generalizing e rest with
  | nil => simp [pop_min] at h
  | cons x xs ih =>
      simp only [pop_min] at h
      cases hx : pop_min xs with
      | none =>
          rw [hx] at h
          have hnil : xs = [] := pop_min_eq_none.1 hx
          subst hnil
          simp at h
          obtain ⟨h1, h2⟩ := h
          subst h1; subst h2
          exact List.Perm.refl _
      | some pr =>
          obtain ⟨m, mrest⟩ := pr
          rw [hx] at h
          have hperm : xs.Perm (m :: mrest) := ih hx
          by_cases hle : entry_le x m
          · simp [hle] at h
            obtain ⟨h1, h2⟩ := h
            subst h1; subst h2
            exact List.Perm.refl _
          · simp [hle] at h
            obtain ⟨h1, h2⟩ := h
            subst h1; subst h2
            exact (hperm.cons x).trans (List.Perm.swap m x mrest)

theorem pop_min_min {l : List Entry} {e : Entry} {rest : List Entry}
    (h : pop_min l = some (e, rest)) : ∀ x ∈ l, e.1 ≤ x.1 := by
  induction l generalizing e rest with
  | nil => simp [pop_min] at h
  | cons x xs ih =>
      simp only [pop_min] at h
      cases hx : pop_min xs with
      | none =>
          rw [hx] at h
          have hnil : xs = [] := pop_min_eq_none.1 hx
          subst hnil
          simp at h
          obtain ⟨h1, _⟩ := h
          subst h1
          intro y hy
          simp at hy
          subst hy
          exact le_refl _
      | some pr =>
          obtain ⟨m, mrest⟩ := pr
          rw [hx] at h
          have hmin : ∀ y ∈ xs, m.1 ≤ y.1 := fun y hy => ih hx y hy
          by_cases hle : entry_le x m
          · simp [hle] at h
            obtain ⟨h1, _⟩ := h
            subst h1
            intro y hy
            rcases List.mem_cons.1 hy with rfl | hy'
            · exact le_refl _
            · exact le_trans (entry_le_fst hle) (hmin y hy')
          · simp [hle] at h
            obtain ⟨h1, _⟩ := h
            subst h1
            intro y hy
            rcases List.mem_cons.1 hy with rfl | hy'
            · exact entry_not_le_fst (Bool.eq_false_iff.2 hle)
            · exact hmin y hy'

theorem pop_min_mem_of_mem_rest {l : List Entry} {e x : Entry}
    {rest : List Entry} (h : pop_min l = some (e, rest)) (hx : x ∈ rest) :
    x ∈ l :=
  (pop_min_perm h).mem_iff.2 (List.mem_cons_of_mem _ hx)

theorem pop_min_self_mem {l : List Entry} {e : Entry} {rest : List Entry}
    (h : pop_min l = some (e, rest)) : e ∈ l :=
  (pop_min_perm h).mem_iff.2 (List.mem_cons_self _ _)

/-! ### Path facts -/

theorem last_node_cons {u : String} {s : String × Bool} {rest : EPath} :
    last_node u (s :: rest) = last_node s.1 rest := rfl

theorem last_node_snoc {u : String} {rest : EPath} {s : String × Bool} :
    last_node u (rest ++ [s]) = s.1 := by
  simp [last_node]

theorem tail_cost_nil {ws wt : ℚ} : tail_cost ws wt [] = 0 := rfl

theorem tail_cost_cons {ws wt : ℚ} {s : String × Bool} {rest : EPath} :
    tail_cost ws wt (s :: rest) =
      edge_minutes ws wt s.2 + tail_cost ws wt rest := by
  simp [tail_cost]

theorem tail_cost_snoc {ws wt : ℚ} {rest : EPath} {s : String × Bool} :
    tail_cost ws wt (rest ++ [s]) =
      tail_cost ws wt rest + edge_minutes ws wt s.2 := by
  simp [tail_cost]

theorem tail_cost_nonneg {ws wt : ℚ} (hws : 0 ≤ ws) (hwt : 0 ≤ wt)
    (rest : EPath) : 0 ≤ tail_cost ws wt rest := by
  induction rest with
  | nil => simp [tail_cost_nil]
  | cons s r ih =>
      rw [tail_cost_cons]
      have hm : 0 ≤ edge_minutes ws wt s.2 := by
        unfold edge_minutes
        split <;> assumption
      linarith

theorem path_cost_cons {ws wt : ℚ} {a : String} {b : Bool} {rest : EPath} :
    path_cost ws wt ((a, b) :: rest) = tail_cost ws wt rest := rfl

theorem path_cost_nonneg {ws wt : ℚ} (hws : 0 ≤ ws) (hwt : 0 ≤ wt)
    {g : Adjacency} {p : EPath} {a b : String} (h : IsPath g p a b) :
    0 ≤ path_cost ws wt p := by
  obtain ⟨rest, rfl, -, -⟩ := h
  exact tail_cost_nonneg hws hwt rest

theorem validFrom_snoc {g : Adjacency} {u : String} {rest : EPath}
    {adj : List (String × Bool)} {s : String × Bool}
    (h : ValidFrom g u rest)
    (hadj : alist_lookup (last_node u rest) g = some adj) (hm : s ∈ adj) :
    ValidFrom g u (rest ++ [s]) := by
  induction rest generalizing u with
  | nil =>
      refine ⟨⟨adj, ?_, hm⟩, trivial⟩
      simpa [last_node] using hadj
  | cons x xs ih =>
      obtain ⟨hstep, hrec⟩ := h
      exact ⟨hstep, ih hrec (by simpa [last_node_cons] using hadj)⟩

theorem isPath_snoc (ws wt : ℚ) {g : Adjacency} {p : EPath}
    {a cur : String} {adj : List (String × Bool)} {s : String × Bool}
    (h : IsPath g p a cur) (hadj : alist_lookup cur g = some adj)
    (hm : s ∈ adj) :
    IsPath g (p ++ [s]) a s.1 ∧
      path_cost ws wt (p ++ [s]) =
        path_cost ws wt p + edge_minutes ws wt s.2 := by
  obtain ⟨rest, rfl, hv, hlast⟩ := h
  constructor
  · refine ⟨rest ++ [s], by simp, ?_, by simp [last_node_snoc]⟩
    exact validFrom_snoc hv (by rwa [hlast]) hm
  · simp [path_cost_cons, tail_cost_snoc]

theorem isPath_singleton {g : Adjacency} {a : String} :
    IsPath g [(a, false)] a a := ⟨[], rfl, trivial, rfl⟩

/-! ### Soundness of the loop (returned paths are genuine walks) -/

theorem relax_foldl_sound {ws wt : ℚ} {g : Adjacency} {start_id : String}
    {t : ℚ} {cur : String} {p : EPath} {adj : List (String × Bool)}
    (hp : IsPath g p start_id cur) (hcost : path_cost ws wt p = t)
    (hadj : alist_lookup cur g = some adj) :
    ∀ acc : Best × List Entry, SoundHeap ws wt g start_id acc.2 →
      SoundHeap ws wt g start_id (adj.foldl (relax_step ws wt t p) acc).2 := by
  intro acc hacc
  refine foldl_rec (relax_step ws wt t p)
    (fun acc => SoundHeap ws wt g start_id acc.2) adj ?_ acc hacc
  intro b nb hnb hb
  unfold relax_step
  have hpush : SoundHeap ws wt g start_id
      ((t + edge_minutes ws wt nb.2, nb.1, p ++ [nb]) :: b.2) := by
    intro e he
    rcases List.mem_cons.1 he with rfl | he'
    · obtain ⟨h1, h2⟩ := isPath_snoc ws wt hp hadj
        (show nb ∈ adj from hnb)
      exact ⟨h1, by rw [h2, hcost]⟩
    · exact hb e he'
  cases halo : alist_lookup nb.1 b.1 with
  | some bv =>
      by_cases hlt : t + edge_minutes ws wt nb.2 < bv
      · simpa [halo, hlt] using hpush
      · simpa [halo, hlt] using hb
  | none => simpa [halo] using hpush

theorem dijkstra_loop_sound {ws wt : ℚ} {g : Adjacency}
    {start_id end_id : String} :
    ∀ (fuel : Nat) (best : Best) (heap : List Entry) (p : EPath) (t : ℚ),
      SoundHeap ws wt g start_id heap →
      dijkstra_loop ws wt g end_id fuel best heap = DResult.found p t →
      IsPath g p start_id end_id ∧ path_cost ws wt p = t := by
  intro fuel
  induction fuel with
  | zero => intro best heap p t _ h; simp [dijkstra_loop] at h
  | succ n ih =>
      intro best heap p t hsound h
      rw [dijkstra_loop] at h
      cases hpop : pop_min heap with
      | none => rw [hpop] at h; simp at h
      | some pr =>
          obtain ⟨⟨t0, cur, p0⟩, rest⟩ := pr
          rw [hpop] at h
          have hrest : SoundHeap ws wt g start_id rest :=
            fun e he => hsound e (pop_min_mem_of_mem_rest hpop he)
          have he0 := hsound _ (pop_min_self_mem hpop)
          by_cases hend : cur = end_id
          · subst hend
            simp at h
            obtain ⟨h1, h2⟩ := h
            subst h1; subst h2
            exact he0
          · simp only [hend, if_false] at h
            by_cases hstale :
                (match alist_lookup cur best with
                 | some b => decide (b < t0)
                 | none => false) = true
            · rw [if_pos hstale] at h
              exact ih best rest p t hrest h
            · rw [if_neg hstale] at h
              cases hadj : alist_lookup cur g with
              | none => rw [hadj] at h; simp at h
              | some adj =>
                  rw [hadj] at h
                  simp only [] at h
                  exact ih _ _ p t
                    (relax_foldl_sound he0.1 he0.2 hadj (best, rest) hrest) h

/-! ### The Dijkstra loop invariant -/

theorem relax_step_mono {ws wt t : ℚ} {p : EPath}
    {acc : Best × List Entry} {nb : String × Bool} {v : String} {b : ℚ}
    (h : alist_lookup v acc.1 = some b) :
    ∃ b', alist_lookup v (relax_step ws wt t p acc nb).1 = some b' ∧
      b' ≤ b := by
  unfold relax_step
  cases halo : alist_lookup nb.1 acc.1 with
  | some bv =>
      by_cases hlt : t + edge_minutes ws wt nb.2 < bv
      · simp only [halo, hlt, if_true]
        by_cases hv : v = nb.1
        · subst hv
          rw [halo] at h
          obtain rfl : bv = b := by injection h
          exact ⟨t + edge_minutes ws wt nb.2, alist_lookup_cons_self,
            le_of_lt hlt⟩
        · exact ⟨b, by rw [alist_lookup_cons_ne hv]; exact h, le_refl b⟩
      · simp only [halo, hlt, if_false]
        exact ⟨b, h, le_refl b⟩
  | none =>
      simp only [halo]
      by_cases hv : v = nb.1
      · subst hv
        rw [halo] at h
        exact absurd h (by simp)
      · exact ⟨b, by rw [alist_lookup_cons_ne hv]; exact h, le_refl b⟩

theorem relax_step_rinv {ws wt : ℚ} {g : Adjacency} {start_id : String}
    {S' : Set String} {best : Best} {t : ℚ} {cur : String} {p : EPath}
    {adj : List (String × Bool)}
    (hws : 0 ≤ ws) (hwt : 0 ≤ wt) (hclosed : Closed g)
    (hpath : IsPath g p start_id cur) (hcost : path_cost ws wt p = t)
    (hadj : alist_lookup cur g = some adj) :
    ∀ (acc : Best × List Entry), ∀ nb ∈ adj,
      RInv ws wt g start_id S' best t acc →
      RInv ws wt g start_id S' best t (relax_step ws wt t p acc nb) := by
  intro acc nb hnb hR
  have hw0 : 0 ≤ edge_minutes ws wt nb.2 := by
    unfold edge_minutes; split <;> assumption
  have hnbg : (alist_lookup nb.1 g).isSome :=
    hclosed (cur, adj) (alist_lookup_mem hadj) nb hnb
  -- the pushed state, shared by the two pushing branches
  have hpush : ∀ (hcase : alist_lookup nb.1 acc.1 = none ∨
      ∃ bv, alist_lookup nb.1 acc.1 = some bv ∧
        t + edge_minutes ws wt nb.2 < bv),
      RInv ws wt g start_id S' best t
        ((nb.1, t + edge_minutes ws wt nb.2) :: acc.1,
         (t + edge_minutes ws wt nb.2, nb.1, p ++ [nb]) :: acc.2) := by
    intro hcase
    set tn := t + edge_minutes ws wt nb.2 with htn
    have hnoS : nb.1 ∉ S' := by
      intro hmem
      obtain ⟨bu, hbu, hble⟩ := hR.sbound nb.1 hmem
      rcases hcase with hnone | ⟨bv, hbv, hlt⟩
      · rw [hbu] at hnone; exact Option.noConfusion hnone
      · rw [hbu] at hbv
        have heq : bu = bv := by injection hbv
        rw [heq] at hble
        linarith
    refine ⟨?_, ?_, ?_, ?_, ?_, ?_, ?_⟩
    · intro e he
      rcases List.mem_cons.1 he with rfl | he'
      · obtain ⟨h1, h2⟩ := isPath_snoc ws wt hpath hadj hnb
        refine ⟨h1, by rw [h2, hcost], ⟨tn, alist_lookup_cons_self,
          le_refl tn⟩, hnbg⟩
      · obtain ⟨e1, e2, ⟨b, hb, hble⟩, e4⟩ := hR.entries e he'
        by_cases hv : e.2.1 = nb.1
        · rcases hcase with hnone | ⟨bv, hbv, hlt⟩
          · rw [hv, hnone] at hb; exact Option.noConfusion hb
          · rw [hv, hbv] at hb
            obtain rfl : bv = b := by injection hb
            exact ⟨e1, e2, ⟨tn, by rw [hv]; exact alist_lookup_cons_self,
              le_trans (le_of_lt hlt) hble⟩, e4⟩
        · exact ⟨e1, e2, ⟨b, by rw [alist_lookup_cons_ne hv]; exact hb,
            hble⟩, e4⟩
    · intro v b hb hble
      by_cases hv : v = nb.1
      · exfalso
        subst hv
        have hcur := hR.protect _ b hb hble
        rcases hcase with hnone | ⟨bv, hbv, hlt⟩
        · rw [hcur] at hnone; exact Option.noConfusion hnone
        · rw [hcur] at hbv
          have heq : b = bv := by injection hbv
          rw [heq] at hble
          linarith
      · rw [alist_lookup_cons_ne hv]
        exact hR.protect v b hb hble
    · intro v b hb
      obtain ⟨b', hb', hble⟩ := hR.mono v b hb
      by_cases hv : v = nb.1
      · subst hv
        rcases hcase with hnone | ⟨bv, hbv, hlt⟩
        · rw [hb'] at hnone; exact Option.noConfusion hnone
        · rw [hb'] at hbv
          obtain rfl : b' = bv := by injection hbv
          exact ⟨tn, alist_lookup_cons_self, by linarith⟩
      · exact ⟨b', by rw [alist_lookup_cons_ne hv]; exact hb', hble⟩
    · intro v bv hbv
      by_cases hv : v = nb.1
      · subst hv
        rw [alist_lookup_cons_self] at hbv
        obtain rfl : tn = bv := by injection hbv
        exact Or.inr ⟨(tn, nb.1, p ++ [nb]), List.mem_cons_self _ _,
          rfl, rfl⟩
      · rw [alist_lookup_cons_ne hv] at hbv
        rcases hR.fresh v bv hbv with hS | ⟨e, he, h1, h2⟩
        · exact Or.inl hS
        · exact Or.inr ⟨e, List.mem_cons_of_mem _ he, h1, h2⟩
    · intro u hu e he
      have hune : u ≠ nb.1 := fun h => hnoS (h ▸ hu)
      obtain ⟨bu, hbu, hble⟩ := hR.sbound u hu
      rcases List.mem_cons.1 he with rfl | he'
      · exact ⟨bu, by rw [alist_lookup_cons_ne hune]; exact hbu,
          by simpa using le_trans hble (by linarith)⟩
      · obtain ⟨bu', hbu', hble'⟩ := hR.smin u hu e he'
        exact ⟨bu', by rw [alist_lookup_cons_ne hune]; exact hbu', hble'⟩
    · intro u hu
      have hune : u ≠ nb.1 := fun h => hnoS (h ▸ hu)
      obtain ⟨bu, hbu, hble⟩ := hR.sbound u hu
      exact ⟨bu, by rw [alist_lookup_cons_ne hune]; exact hbu, hble⟩
    · intro v bv hbv
      by_cases hv : v = nb.1
      · subst hv; exact hnbg
      · rw [alist_lookup_cons_ne hv] at hbv
        exact hR.keysIn v bv hbv
  unfold relax_step
  cases halo : alist_lookup nb.1 acc.1 with
  | some bv =>
      by_cases hlt : t + edge_minutes ws wt nb.2 < bv
      · simpa [halo, hlt] using hpush (Or.inr ⟨bv, halo, hlt⟩)
      · simpa [halo, hlt] using hR
  | none => simpa [halo] using hpush (Or.inl halo)

theorem relax_step_relaxes {ws wt t : ℚ} {p : EPath} :
    ∀ (acc : Best × List Entry) (nb : String × Bool),
      ∃ bv, alist_lookup nb.1 (relax_step ws wt t p acc nb).1 = some bv ∧
        bv ≤ t + edge_minutes ws wt nb.2 := by
  intro acc nb
  unfold relax_step
  cases halo : alist_lookup nb.1 acc.1 with
  | some bv =>
      by_cases hlt : t + edge_minutes ws wt nb.2 < bv
      · simp only [halo, hlt, if_true]
        exact ⟨t + edge_minutes ws wt nb.2, alist_lookup_cons_self,
          le_refl _⟩
      · simp only [halo, hlt, if_false]
        exact ⟨bv, by simp [halo], le_of_not_lt hlt⟩
  | none =>
      simp only [halo]
      exact ⟨t + edge_minutes ws wt nb.2, alist_lookup_cons_self, le_refl _⟩

theorem relax_preserves {ws wt : ℚ} {g : Adjacency}
    {start_id end_id : String} {S : Set String} {best : Best}
    {heap : List Entry} {t : ℚ} {cur : String} {p0 : EPath}
    {rest : List Entry} {adj : List (String × Bool)}
    (hws : 0 ≤ ws) (hwt : 0 ≤ wt) (hclosed : Closed g)
    (hG : GINV ws wt g start_id end_id S best heap)
    (hpop : pop_min heap = some ((t, cur, p0), rest))
    (hend : cur ≠ end_id)
    (hbt : alist_lookup cur best = some t)
    (hadj : alist_lookup cur g = some adj) :
    GINV ws wt g start_id end_id (insert cur S)
      (adj.foldl (relax_step ws wt t p0) (best, rest)).1
      (adj.foldl (relax_step ws wt t p0) (best, rest)).2 := by
  obtain ⟨hpath, hcost, -, -⟩ := hG.entries _ (pop_min_self_mem hpop)
  have hmin : ∀ x ∈ heap, t ≤ x.1 := pop_min_min hpop
  have hinit : RInv ws wt g start_id (insert cur S) best t (best, rest) := by
    refine ⟨?_, ?_, ?_, ?_, ?_, ?_, ?_⟩
    · exact fun e he => hG.entries e (pop_min_mem_of_mem_rest hpop he)
    · exact fun v b hb _ => hb
    · exact fun v b hb => ⟨b, hb, le_refl b⟩
    · intro v bv hbv
      rcases hG.fresh v bv hbv with hS | ⟨e, he, h1, h2⟩
      · exact Or.inl (Set.mem_insert_of_mem _ hS)
      · rcases List.mem_cons.1 ((pop_min_perm hpop).mem_iff.1 he) with
          rfl | he'
        · exact Or.inl (h1 ▸ Set.mem_insert _ _)
        · exact Or.inr ⟨e, he', h1, h2⟩
    · intro u hu e he
      rcases Set.mem_insert_iff.1 hu with rfl | hu'
      · exact ⟨t, hbt, hmin e (pop_min_mem_of_mem_rest hpop he)⟩
      · exact hG.settledMin u hu' e (pop_min_mem_of_mem_rest hpop he)
    · intro u hu
      rcases Set.mem_insert_iff.1 hu with rfl | hu'
      · exact ⟨t, hbt, le_refl t⟩
      · obtain ⟨bu, h1, h2⟩ :=
          hG.settledMin u hu' _ (pop_min_self_mem hpop)
        exact ⟨bu, h1, h2⟩
    · exact hG.keysIn
  have hfinal : RInv ws wt g start_id (insert cur S) best t
      (adj.foldl (relax_step ws wt t p0) (best, rest)) :=
    foldl_rec (relax_step ws wt t p0)
      (RInv ws wt g start_id (insert cur S) best t) adj
      (fun b a ha hb => relax_step_rinv hws hwt hclosed hpath hcost hadj
        b a ha hb)
      (best, rest) hinit
  have hrelaxed : ∀ nb ∈ adj, ∃ bv,
      alist_lookup nb.1
        (adj.foldl (relax_step ws wt t p0) (best, rest)).1 = some bv ∧
      bv ≤ t + edge_minutes ws wt nb.2 := by
    refine foldl_establish (relax_step ws wt t p0)
      (RInv ws wt g start_id (insert cur S) best t)
      (fun nb acc => ∃ bv, alist_lookup nb.1 acc.1 = some bv ∧
        bv ≤ t + edge_minutes ws wt nb.2) adj
      (fun b a ha hb => relax_step_rinv hws hwt hclosed hpath hcost hadj
        b a ha hb)
      (fun b a _ _ => relax_step_relaxes b a)
      ?_ (best, rest) hinit
    intro b a a' _ _ hr
    obtain ⟨bv, h1, h2⟩ := hr
    obtain ⟨bv', h1', h2'⟩ := relax_step_mono h1
    exact ⟨bv', h1', le_trans h2' h2⟩
  have ht0 : 0 ≤ t := by
    have h := path_cost_nonneg hws hwt hpath
    rw [hcost] at h
    exact h
  refine ⟨hfinal.entries, ?_, hfinal.fresh, hfinal.smin, ?_, ?_,
    hfinal.keysIn⟩
  · intro u hu
    rcases Set.mem_insert_iff.1 hu with rfl | hu'
    · exact ⟨t, hfinal.protect u t hbt (le_refl t), adj, hadj, hrelaxed⟩
    · obtain ⟨bu, hbu, adjU, hadjU, hnbs⟩ := hG.settled u hu'
      obtain ⟨bu', hbu', hbut⟩ :=
        hG.settledMin u hu' _ (pop_min_self_mem hpop)
      rw [hbu] at hbu'
      have heq : bu = bu' := by injection hbu'
      subst heq
      refine ⟨bu, hfinal.protect u bu hbu hbut, adjU, hadjU, ?_⟩
      intro nb hnb
      obtain ⟨bv, hbv, hble⟩ := hnbs nb hnb
      obtain ⟨bv', hbv', hble'⟩ := hfinal.mono nb.1 bv hbv
      exact ⟨bv', hbv', le_trans hble' hble⟩
  · intro hmem
    rcases Set.mem_insert_iff.1 hmem with h | h
    · exact hend h.symm
    · exact hG.endFree h
  · obtain ⟨bs, hbs, hbs0⟩ := hG.startLe
    exact ⟨bs, hfinal.protect start_id bs hbs (le_trans hbs0 ht0), hbs0⟩

theorem stale_preserves {ws wt : ℚ} {g : Adjacency}
    {start_id end_id : String} {S : Set String} {best : Best}
    {heap : List Entry} {t : ℚ} {cur : String} {p0 : EPath}
    {rest : List Entry} {b : ℚ}
    (hG : GINV ws wt g start_id end_id S best heap)
    (hpop : pop_min heap = some ((t, cur, p0), rest))
    (hb : alist_lookup cur best = some b) (hlt : b < t) :
    GINV ws wt g start_id end_id S best rest := by
  refine ⟨fun e he => hG.entries e (pop_min_mem_of_mem_rest hpop he),
    hG.settled, ?_,
    fun u hu e he => hG.settledMin u hu e (pop_min_mem_of_mem_rest hpop he),
    hG.endFree, hG.startLe, hG.keysIn⟩
  intro v bv hbv
  rcases hG.fresh v bv hbv with hS | ⟨e, he, h1, h2⟩
  · exact Or.inl hS
  · rcases List.mem_cons.1 ((pop_min_perm hpop).mem_iff.1 he) with rfl | he'
    · exfalso
      have hvcur : v = cur := h1.symm
      subst hvcur
      rw [hb] at hbv
      have heq : b = bv := by injection hbv
      rw [heq] at hlt
      rw [← h2] at hlt
      exact lt_irrefl _ hlt
    · exact Or.inr ⟨e, he', h1, h2⟩

theorem path_bound {ws wt : ℚ} {g : Adjacency} {start_id end_id : String}
    {S : Set String} {best : Best} {heap : List Entry} {tmin : ℚ}
    (hws : 0 ≤ ws) (hwt : 0 ≤ wt)
    (hG : GINV ws wt g start_id end_id S best heap)
    (hmin : ∀ e ∈ heap, tmin ≤ e.1) :
    ∀ (rest : EPath) (u : String) (bu c : ℚ), ValidFrom g u rest →
      alist_lookup u best = some bu → bu ≤ c → last_node u rest ∉ S →
      tmin ≤ c + tail_cost ws wt rest := by
  intro rest
  induction rest with
  | nil =>
      intro u bu c _ hbu hle hz
      rcases hG.fresh u bu hbu with hS | ⟨e, he, _, h2⟩
      · exact absurd hS hz
      · rw [tail_cost_nil]
        have := hmin e he
        linarith [h2 ▸ this]
  | cons s rs ih =>
      intro u bu c hv hbu hle hz
      obtain ⟨⟨adj, hadj, hm⟩, hrec⟩ := hv
      rw [last_node_cons] at hz
      by_cases hu : u ∈ S
      · obtain ⟨bu', hbu', adj', hadj', hnbs⟩ := hG.settled u hu
        rw [hbu] at hbu'
        have hequ : bu = bu' := by injection hbu'
        subst hequ
        rw [hadj] at hadj'
        have heqa : adj = adj' := by injection hadj'
        subst heqa
        obtain ⟨bv, hbv, hble⟩ := hnbs s hm
        have hrecb := ih s.1 bv (c + edge_minutes ws wt s.2) hrec hbv
          (by linarith) hz
        rw [tail_cost_cons]
        linarith
      · rcases hG.fresh u bu hbu with hS | ⟨e, he, _, h2⟩
        · exact absurd hS hu
        · have h1 := hmin e he
          have h3 : 0 ≤ tail_cost ws wt (s :: rs) :=
            tail_cost_nonneg hws hwt _
          linarith [h2 ▸ h1]

theorem path_in_settled {ws wt : ℚ} {g : Adjacency}
    {start_id end_id : String} {S : Set String} {best : Best}
    (hG : GINV ws wt g start_id end_id S best []) :
    ∀ (rest : EPath) (u : String) (bu : ℚ), ValidFrom g u rest →
      alist_lookup u best = some bu → last_node u rest ∈ S := by
  intro rest
  induction rest with
  | nil =>
      intro u bu _ hbu
      rcases hG.fresh u bu hbu with hS | ⟨e, he, -, -⟩
      · exact hS
      · simp at he
  | cons s rs ih =>
      intro u bu hv hbu
      obtain ⟨⟨adj, hadj, hm⟩, hrec⟩ := hv
      have hu : u ∈ S := by
        rcases hG.fresh u bu hbu with hS | ⟨e, he, -, -⟩
        · exact hS
        · simp at he
      obtain ⟨bu', hbu', adj', hadj', hnbs⟩ := hG.settled u hu
      rw [hadj] at hadj'
      have heqa : adj = adj' := by injection hadj'
      subst heqa
      obtain ⟨bv, hbv, -⟩ := hnbs s hm
      rw [last_node_cons]
      exact ih s.1 bv hrec hbv

theorem dijkstra_loop_good {ws wt : ℚ} {g : Adjacency}
    {start_id end_id : String}
    (hws : 0 ≤ ws) (hwt : 0 ≤ wt) (hclosed : Closed g) :
    ∀ (fuel : Nat) (S : Set String) (best : Best) (heap : List Entry),
      GINV ws wt g start_id end_id S best heap →
      GoodResult ws wt g start_id end_id
        (dijkstra_loop ws wt g end_id fuel best heap) := by
  intro fuel
  induction fuel with
  | zero => intro S best heap _; rw [dijkstra_loop]; trivial
  | succ n ih =>
      intro S best heap hG
      rw [dijkstra_loop]
      cases hpop : pop_min heap with
      | none =>
          have hnil : heap = [] := pop_min_eq_none.1 hpop
          subst hnil
          intro π hπ
          obtain ⟨restπ, rfl, hv, hlast⟩ := hπ
          obtain ⟨bs, hbs, -⟩ := hG.startLe
          exact hG.endFree (hlast ▸ path_in_settled hG restπ start_id bs
            hv hbs)
      | some pr =>
          obtain ⟨⟨t, cur, p0⟩, rest⟩ := pr
          by_cases hend : cur = end_id
          · subst hend
            simp only [if_pos rfl]
            obtain ⟨hpath, hcost, -, -⟩ :=
              hG.entries _ (pop_min_self_mem hpop)
            refine ⟨hpath, hcost, ?_⟩
            intro π hπ
            obtain ⟨restπ, rfl, hv, hlast⟩ := hπ
            obtain ⟨bs, hbs, hbs0⟩ := hG.startLe
            have hb := path_bound hws hwt hG (pop_min_min hpop) restπ
              start_id bs 0 hv hbs hbs0 (hlast ▸ hG.endFree)
            rw [path_cost_cons]
            linarith
          · simp only [if_neg hend]
            obtain ⟨-, -, ⟨b, hb, hble⟩, hgs⟩ :=
              hG.entries _ (pop_min_self_mem hpop)
            rw [hb]
            by_cases hstale : b < t
            · simp only [hstale, decide_True]
              exact ih S best rest (stale_preserves hG hpop hb hstale)
            · simp only [hstale, decide_False]
              have hbt : b = t := le_antisymm hble (le_of_not_lt hstale)
              subst hbt
              cases hadj : alist_lookup cur g with
              | none => rw [hadj] at hgs; simp at hgs
              | some adj =>
                  exact ih (insert cur S) _ _
                    (relax_preserves hws hwt hclosed hG hpop hend hb hadj)

/-! ### Termination of the loop

Every best value and heap cost lies on the grid `ℕ / (ws.den * wt.den)`,
so a strictly improving relaxation decreases a natural-number rank; the
loop therefore decreases the lexicographic measure (unreached keys,
summed ranks, heap size). -/

theorem dden_pos (ws wt : ℚ) : 0 < dden ws wt :=
  Nat.mul_pos ws.den_pos wt.den_pos

theorem rat_mul_den (q : ℚ) : q * (q.den : ℚ) = (q.num : ℚ) := by
  have hden : ((q.den : ℚ)) ≠ 0 := by
    exact_mod_cast q.den_pos.ne'
  have h := Rat.num_div_den q
  calc q * (q.den : ℚ)
      = ((q.num : ℚ) / (q.den : ℚ)) * (q.den : ℚ) := by rw [h]
    _ = (q.num : ℚ) := div_mul_cancel₀ _ hden

theorem InD_zero {ws wt : ℚ} : InD ws wt 0 := ⟨0, by simp⟩

theorem InD_add {ws wt q1 q2 : ℚ} (h1 : InD ws wt q1) (h2 : InD ws wt q2) :
    InD ws wt (q1 + q2) := by
  obtain ⟨n1, h1⟩ := h1
  obtain ⟨n2, h2⟩ := h2
  exact ⟨n1 + n2, by push_cast; rw [add_mul, h1, h2]⟩

theorem InD_ws {ws wt : ℚ} (hws : 0 ≤ ws) : InD ws wt ws := by
  refine ⟨ws.num.toNat * wt.den, ?_⟩
  have h1 : ws * ((dden ws wt : ℕ) : ℚ) = (ws * ws.den) * (wt.den : ℚ) := by
    unfold dden
    push_cast
    ring
  rw [h1, rat_mul_den]
  have h2 : (ws.num : ℚ) = ((ws.num.toNat : ℕ) : ℚ) := by
    exact_mod_cast (Int.toNat_of_nonneg (Rat.num_nonneg.2 hws)).symm
  rw [h2]
  push_cast
  ring

theorem InD_wt {ws wt : ℚ} (hwt : 0 ≤ wt) : InD ws wt wt := by
  refine ⟨wt.num.toNat * ws.den, ?_⟩
  have h1 : wt * ((dden ws wt : ℕ) : ℚ) = (wt * wt.den) * (ws.den : ℚ) := by
    unfold dden
    push_cast
    ring
  rw [h1, rat_mul_den]
  have h2 : (wt.num : ℚ) = ((wt.num.toNat : ℕ) : ℚ) := by
    exact_mod_cast (Int.toNat_of_nonneg (Rat.num_nonneg.2 hwt)).symm
  rw [h2]
  push_cast
  ring

theorem InD_edge_minutes {ws wt : ℚ} (hws : 0 ≤ ws) (hwt : 0 ≤ wt)
    (b : Bool) : InD ws wt (edge_minutes ws wt b) := by
  unfold edge_minutes
  split
  · exact InD_wt hwt
  · exact InD_ws hws

theorem InD_tail_cost {ws wt : ℚ} (hws : 0 ≤ ws) (hwt : 0 ≤ wt)
    (rest : EPath) : InD ws wt (tail_cost ws wt rest) := by
  induction rest with
  | nil => exact InD_zero
  | cons s rs ih =>
      rw [tail_cost_cons]
      exact InD_add (InD_edge_minutes hws hwt s.2) ih

theorem rankQ_lt {ws wt q q' : ℚ} (h : InD ws wt q) (h' : InD ws wt q')
    (hlt : q' < q) : rankQ ws wt q' < rankQ ws wt q := by
  obtain ⟨n, hn⟩ := h
  obtain ⟨n', hn'⟩ := h'
  have hd : (0 : ℚ) < ((dden ws wt : ℕ) : ℚ) := by
    exact_mod_cast dden_pos ws wt
  have hmul : q' * ((dden ws wt : ℕ) : ℚ) < q * ((dden ws wt : ℕ) : ℚ) :=
    mul_lt_mul_of_pos_right hlt hd
  rw [hn, hn'] at hmul
  have hnn : n' < n := by exact_mod_cast hmul
  unfold rankQ
  rw [hn, hn']
  simpa using hnn

theorem mem_bkeysF_of_lookup {best : Best} {v : String} {b : ℚ}
    (h : alist_lookup v best = some b) : v ∈ bkeysF best := by
  unfold bkeysF
  rw [List.mem_toFinset]
  exact List.mem_map_of_mem Prod.fst (alist_lookup_mem h)

theorem not_mem_bkeysF_of_lookup_none {best : Best} {v : String}
    (h : alist_lookup v best = none) : v ∉ bkeysF best := by
  unfold bkeysF
  rw [List.mem_toFinset]
  exact alist_lookup_eq_none.1 h

theorem mem_gkeysF_of_isSome {g : Adjacency} {v : String}
    (h : (alist_lookup v g).isSome) : v ∈ gkeysF g := by
  obtain ⟨adj, hadj⟩ := Option.isSome_iff_exists.1 h
  unfold gkeysF
  rw [List.mem_toFinset]
  exact List.mem_map_of_mem Prod.fst (alist_lookup_mem hadj)

theorem MLt_trans {ws wt : ℚ} {g : Adjacency} {b1 b2 b3 : Best}
    (h1 : MLt ws wt g b1 b2) (h2 : MLt ws wt g b2 b3) :
    MLt ws wt g b1 b3 := by
  rcases h1 with h1 | ⟨h1a, h1b⟩ <;> rcases h2 with h2 | ⟨h2a, h2b⟩
  · exact Or.inl (lt_trans h1 h2)
  · exact Or.inl (h2a ▸ h1)
  · exact Or.inl (h1a ▸ h2)
  · exact Or.inr ⟨h1a.trans h2a, lt_trans h1b h2b⟩

theorem bkeysF_cons {v : String} {b : ℚ} {best : Best} :
    bkeysF ((v, b) :: best) = insert v (bkeysF best) := by
  unfold bkeysF
  simp

/-- Inserting a fresh key strictly decreases `meas1`. -/
theorem meas1_insert_lt {g : Adjacency} {best : Best} {v : String} {b : ℚ}
    (hvg : v ∈ gkeysF g) (hvb : v ∉ bkeysF best) :
    meas1 g ((v, b) :: best) < meas1 g best := by
  unfold meas1
  rw [bkeysF_cons]
  refine Finset.card_lt_card ?_
  constructor
  · intro x hx
    rw [Finset.mem_sdiff] at hx ⊢
    refine ⟨hx.1, fun hxb => hx.2 (Finset.mem_insert_of_mem hxb)⟩
  · intro hsub
    have hv : v ∈ gkeysF g \ bkeysF best := Finset.mem_sdiff.2 ⟨hvg, hvb⟩
    have := hsub hv
    rw [Finset.mem_sdiff] at this
    exact this.2 (Finset.mem_insert_self _ _)

/-- Updating an existing key with a strictly smaller grid value keeps
`meas1` and strictly decreases `meas2`. -/
theorem meas2_update_lt {ws wt : ℚ} {g : Adjacency} {best : Best}
    {v : String} {bold tn : ℚ}
    (hD : BestInD ws wt best)
    (hlook : alist_lookup v best = some bold)
    (hInD : InD ws wt tn) (hlt : tn < bold) :
    meas1 g ((v, tn) :: best) = meas1 g best ∧
      meas2 ws wt ((v, tn) :: best) < meas2 ws wt best := by
  have hvb : v ∈ bkeysF best := mem_bkeysF_of_lookup hlook
  have hkeys : bkeysF ((v, tn) :: best) = bkeysF best := by
    rw [bkeysF_cons, Finset.insert_eq_self.2 hvb]
  constructor
  · unfold meas1
    rw [hkeys]
  · unfold meas2
    rw [hkeys]
    refine Finset.sum_lt_sum ?_ ⟨v, hvb, ?_⟩
    · intro u hu
      by_cases huv : u = v
      · subst huv
        rw [alist_lookup_cons_self, hlook]
        exact le_of_lt (rankQ_lt (hD u bold hlook) hInD hlt)
      · rw [alist_lookup_cons_ne huv]
    · rw [alist_lookup_cons_self, hlook]
      exact rankQ_lt (hD v bold hlook) hInD hlt

theorem InD_path_cost {ws wt : ℚ} {g : Adjacency} {p : EPath}
    {a b : String} (hws : 0 ≤ ws) (hwt : 0 ≤ wt) (h : IsPath g p a b) :
    InD ws wt (path_cost ws wt p) := by
  obtain ⟨rest, rfl, -, -⟩ := h
  rw [path_cost_cons]
  exact InD_tail_cost hws hwt rest

theorem relax_step_meas {ws wt t : ℚ} {p : EPath} {g : Adjacency}
    {acc : Best × List Entry} {nb : String × Bool}
    (hws : 0 ≤ ws) (hwt : 0 ≤ wt) (hInDt : InD ws wt t)
    (hnbg : nb.1 ∈ gkeysF g) (hD : BestInD ws wt acc.1) :
    BestInD ws wt (relax_step ws wt t p acc nb).1 ∧
      (relax_step ws wt t p acc nb = acc ∨
        MLt ws wt g (relax_step ws wt t p acc nb).1 acc.1) := by
  have hInDtn : InD ws wt (t + edge_minutes ws wt nb.2) :=
    InD_add hInDt (InD_edge_minutes hws hwt nb.2)
  have hDpush : BestInD ws wt ((nb.1, t + edge_minutes ws wt nb.2) :: acc.1) := by
    intro v bv hbv
    by_cases hv : v = nb.1
    · subst hv
      rw [alist_lookup_cons_self] at hbv
      have heq : t + edge_minutes ws wt nb.2 = bv := by injection hbv
      exact heq ▸ hInDtn
    · rw [alist_lookup_cons_ne hv] at hbv
      exact hD v bv hbv
  unfold relax_step
  cases halo : alist_lookup nb.1 acc.1 with
  | some bv =>
      by_cases hlt : t + edge_minutes ws wt nb.2 < bv
      · simp only [halo, hlt, if_true]
        obtain ⟨heq, hlt2⟩ :=
          meas2_update_lt (g := g) hD halo hInDtn hlt
        exact ⟨hDpush, Or.inr (Or.inr ⟨heq, hlt2⟩)⟩
      · simp only [halo, hlt, if_false]
        exact ⟨hD, Or.inl (by trivial)⟩
  | none =>
      simp only [halo]
      refine ⟨hDpush, Or.inr (Or.inl ?_)⟩
      exact meas1_insert_lt hnbg (not_mem_bkeysF_of_lookup_none halo)

theorem relax_foldl_meas {ws wt : ℚ} (t : ℚ) (p0 : EPath) {g : Adjacency}
    {best : Best} (rest : List Entry) {adj : List (String × Bool)}
    (hws : 0 ≤ ws) (hwt : 0 ≤ wt)
    (hadj : ∀ nb ∈ adj, nb.1 ∈ gkeysF g)
    (hInDt : InD ws wt t) (hD : BestInD ws wt best) :
    BestInD ws wt (adj.foldl (relax_step ws wt t p0) (best, rest)).1 ∧
      ((adj.foldl (relax_step ws wt t p0) (best, rest)) = (best, rest) ∨
        MLt ws wt g (adj.foldl (relax_step ws wt t p0) (best, rest)).1
          best) := by
  refine foldl_rec (relax_step ws wt t p0)
    (fun acc => BestInD ws wt acc.1 ∧
      (acc = (best, rest) ∨ MLt ws wt g acc.1 best)) adj ?_
    (best, rest) ⟨hD, Or.inl rfl⟩
  intro b a ha hb
  obtain ⟨hbD, hbdich⟩ := hb
  obtain ⟨hD', hdich'⟩ :=
    relax_step_meas (g := g) (p := p0) hws hwt hInDt (hadj a ha) hbD
  refine ⟨hD', ?_⟩
  rcases hdich' with heq | hm
  · rw [heq]
    exact hbdich
  · rcases hbdich with rfl | hbm
    · exact Or.inr hm
    · exact Or.inr (MLt_trans hm hbm)

theorem dijkstra_loop_term {ws wt : ℚ} {g : Adjacency}
    {start_id end_id : String}
    (hws : 0 ≤ ws) (hwt : 0 ≤ wt) (hclosed : Closed g) :
    ∀ (n1 n2 n3 : ℕ) (S : Set String) (best : Best) (heap : List Entry),
      GINV ws wt g start_id end_id S best heap → BestInD ws wt best →
      meas1 g best < n1 → meas2 ws wt best < n2 → heap.length < n3 →
      ∃ fuel, dijkstra_loop ws wt g end_id fuel best heap ≠
        DResult.outOfFuel := by
  intro n1
  induction n1 with
  | zero => intro n2 n3 S best heap _ _ h1 _ _; omega
  | succ n1 ih1 =>
      intro n2
      induction n2 with
      | zero => intro n3 S best heap _ _ _ h2 _; omega
      | succ n2 ih2 =>
          intro n3
          induction n3 with
          | zero => intro S best heap _ _ _ _ h3; omega
          | succ n3 ih3 =>
              intro S best heap hG hD h1 h2 h3
              cases hpop : pop_min heap with
              | none =>
                  refine ⟨1, ?_⟩
                  rw [dijkstra_loop]
                  simp [hpop]
              | some pr =>
                  obtain ⟨⟨t, cur, p0⟩, rest⟩ := pr
                  have hlen : heap.length = rest.length + 1 := by
                    simpa using (pop_min_perm hpop).length_eq
                  by_cases hend : cur = end_id
                  · refine ⟨1, ?_⟩
                    rw [dijkstra_loop]
                    simp [hpop, hend]
                  · obtain ⟨hpath, hcost, ⟨b, hb, hble⟩, hgs⟩ :=
                      hG.entries _ (pop_min_self_mem hpop)
                    by_cases hst : b < t
                    · obtain ⟨fuel, hf⟩ := ih3 S best rest
                        (stale_preserves hG hpop hb hst) hD h1 h2 (by omega)
                      refine ⟨fuel + 1, ?_⟩
                      rw [dijkstra_loop]
                      simp only [hpop, if_neg hend, hb, hst, decide_True,
                        if_true]
                      exact hf
                    · have hbt : b = t := le_antisymm hble (le_of_not_lt hst)
                      subst hbt
                      cases hadj : alist_lookup cur g with
                      | none =>
                          refine ⟨1, ?_⟩
                          rw [dijkstra_loop]
                          simp [hpop, hend, hb, hadj, lt_irrefl]
                      | some adj =>
                          have hInDt : InD ws wt b := by
                            have h := InD_path_cost hws hwt hpath
                            rw [hcost] at h
                            exact h
                          have hadjk : ∀ nb ∈ adj, nb.1 ∈ gkeysF g := by
                            intro nb hnb
                            exact mem_gkeysF_of_isSome
                              (hclosed (cur, adj) (alist_lookup_mem hadj)
                                nb hnb)
                          obtain ⟨hD', hdich⟩ := relax_foldl_meas
                            b p0 rest hws hwt hadjk hInDt hD
                          have hG' := relax_preserves hws hwt hclosed hG
                            hpop hend hb hadj
                          rcases hdich with heq | hm
                          · obtain ⟨fuel, hf⟩ := ih3 (insert cur S) best
                              rest (by rw [heq] at hG'; exact hG') hD h1 h2
                              (by omega)
                            refine ⟨fuel + 1, ?_⟩
                            rw [dijkstra_loop]
                            simp only [hpop, if_neg hend, hb, lt_irrefl,
                              decide_False, if_false, hadj, heq]
                            exact hf
                          · have hnext : ∃ fuel,
                                dijkstra_loop ws wt g end_id fuel
                                  (adj.foldl (relax_step ws wt b p0)
                                    (best, rest)).1
                                  (adj.foldl (relax_step ws wt b p0)
                                    (best, rest)).2 ≠ DResult.outOfFuel := by
                              rcases hm with hm1 | ⟨hmeq, hm2⟩
                              · exact ih1
                                  (meas2 ws wt (adj.foldl
                                    (relax_step ws wt b p0)
                                    (best, rest)).1 + 1)
                                  ((adj.foldl (relax_step ws wt b p0)
                                    (best, rest)).2.length + 1)
                                  (insert cur S) _ _ hG' hD' (by omega)
                                  (Nat.lt_succ_self _) (Nat.lt_succ_self _)
                              · exact ih2
                                  ((adj.foldl (relax_step ws wt b p0)
                                    (best, rest)).2.length + 1)
                                  (insert cur S) _ _ hG' hD'
                                  (by omega) (by omega)
                                  (Nat.lt_succ_self _)
                            obtain ⟨fuel, hf⟩ := hnext
                            refine ⟨fuel + 1, ?_⟩
                            rw [dijkstra_loop]
                            simp only [hpop, if_neg hend, hb, lt_irrefl,
                              decide_False, if_false, hadj]
                            exact hf

/-! ### Top-level engine guarantees -/

theorem initial_ginv {ws wt : ℚ} {g : Adjacency} {a b : String}
    (ha : (alist_lookup a g).isSome) :
    GINV ws wt g a b ∅ [(a, 0)] [(0, a, [(a, false)])] := by
  refine ⟨?_, ?_, ?_, ?_, ?_, ?_, ?_⟩
  · intro e he
    rcases List.mem_cons.1 he with rfl | he'
    · exact ⟨isPath_singleton, rfl,
        ⟨0, alist_lookup_cons_self, le_refl 0⟩, ha⟩
    · simp at he'
  · intro u hu
    exact absurd hu (Set.not_mem_empty u)
  · intro v bv hbv
    by_cases hv : v = a
    · subst hv
      rw [alist_lookup_cons_self] at hbv
      have heq : (0 : ℚ) = bv := by injection hbv
      exact Or.inr ⟨(0, v, [(v, false)]), List.mem_cons_self _ _, rfl, heq⟩
    · rw [alist_lookup_cons_ne hv] at hbv
      simp [alist_lookup] at hbv
  · intro u hu
    exact absurd hu (Set.not_mem_empty u)
  · exact Set.not_mem_empty b
  · exact ⟨0, alist_lookup_cons_self, le_refl 0⟩
  · intro v bv hbv
    by_cases hv : v = a
    · subst hv; exact ha
    · rw [alist_lookup_cons_ne hv] at hbv
      simp [alist_lookup] at hbv

theorem initial_bestInD {ws wt : ℚ} {a : String} :
    BestInD ws wt [(a, 0)] := by
  intro v bv hbv
  by_cases hv : v = a
  · subst hv
    rw [alist_lookup_cons_self] at hbv
    have heq : (0 : ℚ) = bv := by injection hbv
    exact heq ▸ InD_zero
  · rw [alist_lookup_cons_ne hv] at hbv
    simp [alist_lookup] at hbv

theorem initial_soundHeap {ws wt : ℚ} {g : Adjacency} {a : String} :
    SoundHeap ws wt g a [(0, a, [(a, false)])] := by
  intro e he
  rcases List.mem_cons.1 he with rfl | he'
  · exact ⟨isPath_singleton, rfl⟩
  · simp at he'

/-- Combined termination and correctness of `shortest_path_by_time` on a
well-formed graph with both endpoints present: some fuel finishes the run,
and the outcome satisfies `GoodResult`. -/
theorem spbt_spec {ws wt : ℚ} {g : Adjacency} {a b : String}
    (hws : 0 ≤ ws) (hwt : 0 ≤ wt) (hclosed : Closed g)
    (ha : (alist_lookup a g).isSome) (hb : (alist_lookup b g).isSome) :
    ∃ fuel, shortest_path_by_time ws wt g a b fuel ≠ DResult.outOfFuel ∧
      GoodResult ws wt g a b (shortest_path_by_time ws wt g a b fuel) := by
  have hcond : ¬((alist_lookup a g).isNone ∨ (alist_lookup b g).isNone) := by
    simp [Option.isNone_iff_eq_none]
    constructor
    · intro h; rw [h] at ha; simp at ha
    · intro h; rw [h] at hb; simp at hb
  by_cases hab : a = b
  · refine ⟨0, ?_⟩
    subst hab
    rw [shortest_path_by_time, if_neg hcond, if_pos rfl]
    refine ⟨by simp, isPath_singleton, rfl, ?_⟩
    intro π hπ
    exact path_cost_nonneg hws hwt hπ
  · obtain ⟨fuel, hf⟩ := dijkstra_loop_term hws hwt hclosed
      (meas1 g [(a, 0)] + 1) (meas2 ws wt [(a, 0)] + 1) 2 ∅ [(a, 0)]
      [(0, a, [(a, false)])] (initial_ginv ha) initial_bestInD
      (Nat.lt_succ_self _) (Nat.lt_succ_self _) (by simp)
    refine ⟨fuel, ?_⟩
    rw [shortest_path_by_time, if_neg hcond, if_neg hab]
    exact ⟨hf, dijkstra_loop_good hws hwt hclosed fuel ∅ _ _
      (initial_ginv ha)⟩

/-- When some path exists, `shortest_path_by_time` terminates in a `found`
result whose total is the cost of the returned path and a lower bound on
the cost of every path. -/
theorem spbt_found {ws wt : ℚ} {g : Adjacency} {a b : String} {π : EPath}
    (hws : 0 ≤ ws) (hwt : 0 ≤ wt) (hclosed : Closed g)
    (ha : (alist_lookup a g).isSome) (hb : (alist_lookup b g).isSome)
    (hπ : IsPath g π a b) :
    ∃ fuel p t, shortest_path_by_time ws wt g a b fuel = DResult.found p t ∧
      IsPath g p a b ∧ path_cost ws wt p = t ∧
      ∀ π', IsPath g π' a b → t ≤ path_cost ws wt π' := by
  obtain ⟨fuel, hne, hgood⟩ := spbt_spec hws hwt hclosed ha hb
  cases hres : shortest_path_by_time ws wt g a b fuel with
  | found p t =>
      rw [hres] at hgood
      exact ⟨fuel, p, t, hres, hgood.1, hgood.2.1, hgood.2.2⟩
  | notFound =>
      rw [hres] at hgood
      exact absurd hπ (hgood π)
  | keyError s =>
      rw [hres] at hgood
      exact absurd hgood not_false
  | outOfFuel => exact absurd hres hne

/-- Changing only the transfer weight changes a path cost by the weight
difference times the number of transfers used. -/
theorem tail_cost_weight_change (ws wt wt' : ℚ) (rest : EPath) :
    tail_cost ws wt' rest =
      tail_cost ws wt rest +
        (wt' - wt) * ((rest.countP (fun s => s.2) : ℕ) : ℚ) := by
  induction rest with
  | nil => simp [tail_cost_nil]
  | cons s rs ih =>
      rw [tail_cost_cons, tail_cost_cons, ih, List.countP_cons]
      cases hs : s.2 with
      | true =>
          simp only [edge_minutes, if_true, hs]
          push_cast
          ring
      | false =>
          simp only [edge_minutes, if_false, hs]
          push_cast
          ring

theorem path_cost_weight_change (ws wt wt' : ℚ) (p : EPath) :
    path_cost ws wt' p =
      path_cost ws wt p + (wt' - wt) * ((transfer_count p : ℕ) : ℚ) := by
  unfold path_cost transfer_count
  exact tail_cost_weight_change ws wt wt' p.tail

/-! ### Claims about the shortest-path engine -/

/-- C1: for every well-formed graph, every pair of station identifiers
present as keys and every path in the graph from `start_id` to `end_id`,
`shortest_path_by_time` (with the configured costs 3 / 6) terminates with a
`found` result (not `None`) whose total time is at most the total cost of
that path — no alternative path has strictly lower total cost. -/
theorem claim_C1 {g : Adjacency} {a b : String} {π : EPath}
    (hclosed : Closed g)
    (ha : (alist_lookup a g).isSome) (hb : (alist_lookup b g).isSome)
    (hπ : IsPath g π a b) :
    ∃ fuel p t,
      shortest_path_by_time minutes_per_segment minutes_per_transfer
        g a b fuel = DResult.found p t ∧
      t ≤ path_cost minutes_per_segment minutes_per_transfer π := by
  have h3 : (0 : ℚ) ≤ minutes_per_segment := by norm_num [minutes_per_segment]
  have h6 : (0 : ℚ) ≤ minutes_per_transfer := by
    norm_num [minutes_per_transfer]
  obtain ⟨fuel, p, t, e, -, -, hopt⟩ := spbt_found h3 h6 hclosed ha hb hπ
  exact ⟨fuel, p, t, e, hopt π hπ⟩

theorem claim_C1_witness :
    Closed [("a", [("b", false)]), ("b", [("a", false)])] ∧
    IsPath [("a", [("b", false)]), ("b", [("a", false)])]
      [("a", false), ("b", false)] "a" "b" ∧
    (∃ fuel p t,
      shortest_path_by_time minutes_per_segment minutes_per_transfer
        [("a", [("b", false)]), ("b", [("a", false)])] "a" "b" fuel =
        DResult.found p t ∧
      t ≤ path_cost minutes_per_segment minutes_per_transfer
        [("a", false), ("b", false)]) :=
  ⟨by decide,
   ⟨[("b", false)], rfl,
     ⟨⟨[("b", false)], by decide, by decide⟩, trivial⟩, by decide⟩,
   claim_C1 (by decide) (by decide) (by decide)
     ⟨[("b", false)], rfl,
       ⟨⟨[("b", false)], by decide, by decide⟩, trivial⟩, by decide⟩⟩

/-- C10: every non-`None` result of `shortest_path_by_time` is a genuine
walk of the graph consistent with the reported total: the path starts with
`(start_id, false)`, ends at `end_id`, each consecutive step follows a
recorded adjacency edge with its transfer flag, and the total is the sum of
per-class costs over the non-origin elements. -/
theorem claim_C10 {ws wt : ℚ} {g : Adjacency} {a b : String} {fuel : Nat}
    {p : EPath} {t : ℚ}
    (h : shortest_path_by_time ws wt g a b fuel = DResult.found p t) :
    IsPath g p a b ∧ path_cost ws wt p = t := by
  rw [shortest_path_by_time] at h
  by_cases hmiss : (alist_lookup a g).isNone ∨ (alist_lookup b g).isNone
  · rw [if_pos hmiss] at h
    exact absurd h (by simp)
  · rw [if_neg hmiss] at h
    by_cases hab : a = b
    · rw [if_pos hab] at h
      have hp : [(a, false)] = p := by injection h
      have ht : (0 : ℚ) = t := by injection h
      subst hab
      rw [← hp, ← ht]
      exact ⟨isPath_singleton, rfl⟩
    · rw [if_neg hab] at h
      exact dijkstra_loop_sound fuel _ _ p t initial_soundHeap h

theorem claim_C10_witness :
    shortest_path_by_time 3 6 [("a", [("b", false)]), ("b", [("a", false)])]
      "a" "b" 3 = DResult.found [("a", false), ("b", false)] 3 ∧
    (IsPath [("a", [("b", false)]), ("b", [("a", false)])]
        [("a", false), ("b", false)] "a" "b" ∧
      path_cost 3 6 [("a", false), ("b", false)] = 3) :=
  have h : shortest_path_by_time 3 6
      [("a", [("b", false)]), ("b", [("a", false)])] "a" "b" 3 =
      DResult.found [("a", false), ("b", false)] 3 := by
    norm_num +decide [shortest_path_by_time, dijkstra_loop, pop_min,
      relax_step, alist_lookup, edge_minutes, entry_le, path_le, pstep_lt,
      bool_lt]
  ⟨h, claim_C10 h⟩

/-- C9: on any well-formed graph (the empty graph included), a query whose
start or end identifier is missing from the keys, or between present
identifiers that no path joins, terminates in the uniform not-found
outcome (`None`) instead of raising. -/
theorem claim_C9 {g : Adjacency} {a b : String}
    (hclosed : Closed g)
    (h : (alist_lookup a g).isNone ∨ (alist_lookup b g).isNone ∨
      ∀ π, ¬ IsPath g π a b) :
    ∃ fuel, shortest_path_by_time minutes_per_segment minutes_per_transfer
      g a b fuel = DResult.notFound := by
  have h3 : (0 : ℚ) ≤ minutes_per_segment := by norm_num [minutes_per_segment]
  have h6 : (0 : ℚ) ≤ minutes_per_transfer := by
    norm_num [minutes_per_transfer]
  by_cases hmiss : (alist_lookup a g).isNone ∨ (alist_lookup b g).isNone
  · exact ⟨0, by rw [shortest_path_by_time, if_pos hmiss]⟩
  · rcases h with h | h | hnopath
    · exact absurd (Or.inl h) hmiss
    · exact absurd (Or.inr h) hmiss
    · rw [not_or] at hmiss
      have ha : (alist_lookup a g).isSome := by
        rcases hres : alist_lookup a g with _ | v
        · exact absurd (by rw [hres]; rfl) hmiss.1
        · rfl
      have hb : (alist_lookup b g).isSome := by
        rcases hres : alist_lookup b g with _ | v
        · exact absurd (by rw [hres]; rfl) hmiss.2
        · rfl
      by_cases hab : a = b
      · subst hab
        exact absurd isPath_singleton (hnopath [(a, false)])
      · obtain ⟨fuel, hne, hgood⟩ := spbt_spec h3 h6 hclosed ha hb
        cases hres : shortest_path_by_time minutes_per_segment
            minutes_per_transfer g a b fuel with
        | found p t =>
            rw [hres] at hgood
            exact absurd hgood.1 (hnopath p)
        | notFound => exact ⟨fuel, hres⟩
        | keyError s =>
            rw [hres] at hgood
            exact absurd hgood not_false
        | outOfFuel => exact absurd hres hne

theorem claim_C9_witness :
    Closed ([] : Adjacency) ∧
    ((alist_lookup "x" ([] : Adjacency)).isNone ∨
      (alist_lookup "y" ([] : Adjacency)).isNone ∨
      ∀ π, ¬ IsPath ([] : Adjacency) π "x" "y") ∧
    (∃ fuel, shortest_path_by_time minutes_per_segment minutes_per_transfer
      ([] : Adjacency) "x" "y" fuel = DResult.notFound) :=
  ⟨by decide, Or.inl (by decide),
   claim_C9 (by decide) (Or.inl (by decide))⟩

/-- C7: for a fixed well-formed graph and a reachable pair, raising the
per-transfer cost while holding the per-segment cost fixed never lowers
the returned total time, and the route returned at the higher transfer
cost uses at most as many transfer edges. -/
theorem claim_C7 {g : Adjacency} {a b : String} {π : EPath}
    {ws wt wt' : ℚ}
    (hclosed : Closed g) (hws : 0 ≤ ws) (hwt : 0 ≤ wt) (hlt : wt < wt')
    (ha : (alist_lookup a g).isSome) (hb : (alist_lookup b g).isSome)
    (hπ : IsPath g π a b) :
    ∃ fuel fuel' p t p' t',
      shortest_path_by_time ws wt g a b fuel = DResult.found p t ∧
      shortest_path_by_time ws wt' g a b fuel' = DResult.found p' t' ∧
      t ≤ t' ∧ transfer_count p' ≤ transfer_count p := by
  have hwt' : 0 ≤ wt' := le_trans hwt (le_of_lt hlt)
  obtain ⟨f1, p, t, e1, hpP, hpc, hopt⟩ := spbt_found hws hwt hclosed ha hb hπ
  obtain ⟨f2, p', t', e2, hp'P, hp'c, hopt'⟩ :=
    spbt_found hws hwt' hclosed ha hb hπ
  have hd : 0 < wt' - wt := by linarith
  have hcnt : (0 : ℚ) ≤ ((transfer_count p' : ℕ) : ℚ) := Nat.cast_nonneg _
  have hcnt2 : (0 : ℚ) ≤ ((transfer_count p : ℕ) : ℚ) := Nat.cast_nonneg _
  have hc1 : path_cost ws wt p ≤ path_cost ws wt p' := by
    rw [hpc]
    exact hopt p' hp'P
  have hc2 : path_cost ws wt' p' ≤ path_cost ws wt' p := by
    rw [hp'c]
    exact hopt' p hpP
  have hdec : path_cost ws wt' p =
      path_cost ws wt p + (wt' - wt) * ((transfer_count p : ℕ) : ℚ) :=
    path_cost_weight_change ws wt wt' p
  have hdec' : path_cost ws wt' p' =
      path_cost ws wt p' + (wt' - wt) * ((transfer_count p' : ℕ) : ℚ) :=
    path_cost_weight_change ws wt wt' p'
  refine ⟨f1, f2, p, t, p', t', e1, e2, ?_, ?_⟩
  · rw [← hpc, ← hp'c]
    nlinarith
  · have hmul : (wt' - wt) * ((transfer_count p' : ℕ) : ℚ) ≤
        (wt' - wt) * ((transfer_count p : ℕ) : ℚ) := by nlinarith
    have hqle : ((transfer_count p' : ℕ) : ℚ) ≤
        ((transfer_count p : ℕ) : ℚ) :=
      le_of_mul_le_mul_left hmul hd
    exact_mod_cast hqle

theorem claim_C7_witness :
    Closed [("a", [("b", false)]), ("b", [("a", false)])] ∧
    (0 : ℚ) ≤ 3 ∧ (0 : ℚ) ≤ 6 ∧ (6 : ℚ) < 7 ∧
    IsPath [("a", [("b", false)]), ("b", [("a", false)])]
      [("a", false), ("b", false)] "a" "b" ∧
    (∃ fuel fuel' p t p' t',
      shortest_path_by_time 3 6 [("a", [("b", false)]), ("b", [("a", false)])]
        "a" "b" fuel = DResult.found p t ∧
      shortest_path_by_time 3 7 [("a", [("b", false)]), ("b", [("a", false)])]
        "a" "b" fuel' = DResult.found p' t' ∧
      t ≤ t' ∧ transfer_count p' ≤ transfer_count p) :=
  ⟨by decide, by norm_num, by norm_num, by norm_num,
   ⟨[("b", false)], rfl,
     ⟨⟨[("b", false)], by decide, by decide⟩, trivial⟩, by decide⟩,
   claim_C7 (by decide) (by norm_num) (by norm_num) (by norm_num)
     (by decide) (by decide)
     ⟨[("b", false)], rfl,
       ⟨⟨[("b", false)], by decide, by decide⟩, trivial⟩, by decide⟩⟩

/-! ### Claims about the correction pipeline -/

theorem mem_apply_edge_patches {stations : List Station}
    {trips : List Trip} {e : Trip} :
    e ∈ apply_edge_patches stations trips ↔
      (e ∈ trips ∧ e ∉ remove_set EDGE_REMOVE) ∨ e ∈ add_edges EDGE_ADD := by
  unfold apply_edge_patches apply_edge_patches_with
  rw [if_neg (by decide)]
  simp [List.mem_filter]

theorem add_edges_not_removed :
    ∀ e ∈ add_edges EDGE_ADD, e ∉ remove_set EDGE_REMOVE := by decide

theorem pair_flatMap_symm {l : List Trip} {a b : String} {c : EdgeType}
    (h : (a, b, c) ∈ l.flatMap
      (fun e => [(e.1, e.2.1, e.2.2), (e.2.1, e.1, e.2.2)])) :
    (b, a, c) ∈ l.flatMap
      (fun e => [(e.1, e.2.1, e.2.2), (e.2.1, e.1, e.2.2)]) := by
  rw [List.mem_flatMap] at h ⊢
  obtain ⟨e, he, hm⟩ := h
  refine ⟨e, he, ?_⟩
  rcases List.mem_cons.1 hm with h1 | h1
  · have h2 : (b, a, c) = (e.2.1, e.1, e.2.2) := by
      obtain ⟨x1, x2, x3⟩ := Prod.mk.injEq .. ▸ h1
      simp_all
    rw [h2]
    simp
  · rcases List.mem_cons.1 h1 with h2 | h2
    · have h3 : (b, a, c) = (e.1, e.2.1, e.2.2) := by simp_all
      rw [h3]
      simp
    · simp at h2

theorem add_edges_of_catalog {l : List Trip} {a b : String} {c : EdgeType}
    (h : (a, b, c) ∈ l ∨ (b, a, c) ∈ l) : (a, b, c) ∈ add_edges l := by
  unfold add_edges
  rw [List.mem_flatMap]
  rcases h with h | h
  · exact ⟨(a, b, c), h, by simp⟩
  · exact ⟨(b, a, c), h, by simp⟩

theorem consecutive_trips_symm {l : List FeedStation} {a b : String}
    {c : EdgeType} (h : (a, b, c) ∈ consecutive_trips l) :
    (b, a, c) ∈ consecutive_trips l := by
  induction l with
  | nil => simp [consecutive_trips] at h
  | cons x xs ih =>
      cases xs with
      | nil => simp [consecutive_trips] at h
      | cons y ys =>
          rw [consecutive_trips] at h ⊢
          rcases List.mem_cons.1 h with h1 | h1
          · have h2 : (b, a, c) = (y.id, x.id, EdgeType.same_line) := by
              simp_all
            rw [h2]
            simp
          · rcases List.mem_cons.1 h1 with h2 | h2
            · have h3 : (b, a, c) = (x.id, y.id, EdgeType.same_line) := by
                simp_all
              rw [h3]
              simp
            · exact List.mem_cons_of_mem _ (List.mem_cons_of_mem _ (ih h2))

theorem feed_same_line_trips_symm {lines : List FeedLine} {a b : String}
    {c : EdgeType} (h : (a, b, c) ∈ feed_same_line_trips lines) :
    (b, a, c) ∈ feed_same_line_trips lines := by
  unfold feed_same_line_trips at h ⊢
  rw [List.mem_flatMap] at h ⊢
  obtain ⟨l, hl, hm⟩ := h
  exact ⟨l, hl, consecutive_trips_symm hm⟩

/-- C5: the final edge set of the pipeline — feed-derived segment edges
followed by the edge-remove and edge-add patches — is symmetric: whenever
a directed edge `(a, b, class)` is present, so is `(b, a, class)`. -/
theorem claim_C5 {stations : List Station} {lines : List FeedLine}
    {a b : String} {c : EdgeType}
    (h : (a, b, c) ∈ enrich_trip_pipeline stations lines) :
    (b, a, c) ∈ enrich_trip_pipeline stations lines := by
  unfold enrich_trip_pipeline at h ⊢
  rcases mem_apply_edge_patches.1 h with ⟨hin, hnr⟩ | hadd
  · refine mem_apply_edge_patches.2 (Or.inl
      ⟨feed_same_line_trips_symm hin, ?_⟩)
    intro hmem
    exact hnr (pair_flatMap_symm hmem)
  · exact mem_apply_edge_patches.2 (Or.inr (pair_flatMap_symm hadd))

theorem claim_C5_witness :
    ("1.98", "2.99", EdgeType.transfer) ∈ enrich_trip_pipeline [] [] ∧
    ("2.99", "1.98", EdgeType.transfer) ∈ enrich_trip_pipeline [] [] :=
  have h : ("1.98", "2.99", EdgeType.transfer) ∈
      enrich_trip_pipeline [] [] := by decide
  ⟨h, claim_C5 h⟩

/-- C2 (counterexample): re-applying the fixed patch catalogs to their own
output does not preserve multiplicities — the transfer edge
Охотный ряд → Театральная (`1.98 → 2.99`) occurs once after one
application to the empty trip list and twice after two. -/
theorem claim_C2_counterexample :
    List.count ("1.98", "2.99", EdgeType.transfer)
      (apply_edge_patches (apply_stations_add []) []) = 1 ∧
    List.count ("1.98", "2.99", EdgeType.transfer)
      (apply_edge_patches (apply_stations_add [])
        (apply_edge_patches (apply_stations_add []) [])) = 2 := by
  decide

/-- C2 (amended): re-application of the fixed catalogs preserves the edge
set though not the multiset — a triple is present in the twice-corrected
result exactly when it is present in the once-corrected result (the
second application re-appends every catalog addition, duplicating it). -/
theorem claim_C2_amended (stations stations' : List Station)
    (trips : List Trip) (e : Trip) :
    e ∈ apply_edge_patches stations'
        (apply_edge_patches stations trips) ↔
      e ∈ apply_edge_patches stations trips := by
  constructor
  · intro h
    rcases mem_apply_edge_patches.1 h with ⟨hin, -⟩ | hadd
    · exact hin
    · exact mem_apply_edge_patches.2 (Or.inr hadd)
  · intro h
    rcases mem_apply_edge_patches.1 h with ⟨-, hnr⟩ | hadd
    · exact mem_apply_edge_patches.2 (Or.inl ⟨h, hnr⟩)
    · exact mem_apply_edge_patches.2 (Or.inl
        ⟨h, add_edges_not_removed e hadd⟩)

/-- C3 (counterexample): the correction step performs no validation — with
an empty feed, the addition patch Охотный ряд ↔ Театральная produces an
edge whose endpoints are absent from the post-insertion station set, and
`_apply_edge_patches` returns it silently (it is a total function with no
failure path). -/
theorem claim_C3_counterexample :
    ("1.98", "2.99", EdgeType.transfer) ∈
      apply_edge_patches (apply_stations_add []) [] ∧
    "1.98" ∉ station_ids (apply_stations_add []) := by decide

theorem build_graph_step_keys (t : Trip) (g : Adjacency) :
    (g.map (fun p =>
      if p.1 = t.1 then
        (p.1, p.2 ++ [(t.2.1, decide (t.2.2 = EdgeType.transfer))])
      else p)).map Prod.fst = g.map Prod.fst := by
  rw [List.map_map]
  refine List.map_congr_left ?_
  intro p _
  by_cases hp : p.1 = t.1 <;> simp [hp]

theorem build_graph_fold_error_absorb (trips : List Trip) (s : String) :
    trips.foldl build_graph_step (Except.error s) = Except.error s := by
  induction trips with
  | nil => rfl
  | cons t ts ih => exact ih

theorem build_graph_fold_error {stations : List Station} :
    ∀ (trips : List Trip) (g : Adjacency),
      g.map Prod.fst = (station_ids stations).dedup →
      ((∃ s, trips.foldl build_graph_step (Except.ok g) =
          Except.error s) ↔
        ∃ t ∈ trips, t.1 ∉ station_ids stations) := by
  intro trips
  induction trips with
  | nil =>
      intro g hkeys
      simp
  | cons t ts ih =>
      intro g hkeys
      rw [List.foldl_cons]
      cases hlook : alist_lookup t.1 g with
      | none =>
          have hnot : t.1 ∉ station_ids stations := by
            have h1 := alist_lookup_eq_none.1 hlook
            rw [hkeys, List.mem_dedup] at h1
            exact h1
          simp only [build_graph_step, hlook]
          rw [build_graph_fold_error_absorb]
          constructor
          · intro _
            exact ⟨t, List.mem_cons_self _ _, hnot⟩
          · intro _
            exact ⟨t.1, rfl⟩
      | some adj =>
          have hmem : t.1 ∈ station_ids stations := by
            have h1 := List.mem_map_of_mem Prod.fst
              (alist_lookup_mem hlook)
            rw [hkeys, List.mem_dedup] at h1
            exact h1
          simp only [build_graph_step, hlook]
          rw [ih _ (by rw [build_graph_step_keys, hkeys])]
          constructor
          · intro ⟨t', ht', hn⟩
            exact ⟨t', List.mem_cons_of_mem _ ht', hn⟩
          · intro ⟨t', ht', hn⟩
            rcases List.mem_cons.1 ht' with rfl | ht''
            · exact absurd hmem hn
            · exact ⟨t', ht'', hn⟩

/-- C3 (amended): the correction function itself never fails and silently
returns dangling edges; the failure surfaces only in `build_graph`, which
raises a `KeyError` naming the missing station id — not the offending
patch — exactly when some trip's from-station is absent from the station
set (a dangling to-station is accepted silently). -/
theorem claim_C3_amended (stations : List Station) (trips : List Trip) :
    (∃ s, build_graph stations trips = Except.error s) ↔
      ∃ t ∈ trips, t.1 ∉ station_ids stations := by
  unfold build_graph
  refine build_graph_fold_error trips _ ?_
  have hcomp : (Prod.fst ∘ fun i =>
      ((i, ([] : List (String × Bool))) : String × List (String × Bool))) =
      (id : String → String) := rfl
  rw [List.map_map, hcomp, List.map_id]

/-- C6: with the patch application order of `_apply_edge_patches` —
removals filtered against the pre-existing edge set first, catalog
additions appended afterwards — an unordered pair and class listed in both
catalogs ends up present in both directions: the later addition reinstates
what the removal dropped. -/
theorem claim_C6 (edge_remove edge_add : List Trip)
    (stations : List Station) (trips : List Trip)
    (a b : String) (c : EdgeType)
    (hrm : (a, b, c) ∈ edge_remove ∨ (b, a, c) ∈ edge_remove)
    (hadd : (a, b, c) ∈ edge_add ∨ (b, a, c) ∈ edge_add) :
    (a, b, c) ∈
        apply_edge_patches_with edge_remove edge_add stations trips ∧
      (b, a, c) ∈
        apply_edge_patches_with edge_remove edge_add stations trips := by
  have hne : ¬(edge_remove = [] ∧ edge_add = []) := by
    rintro ⟨h1, -⟩
    rcases hrm with h | h
    · rw [h1] at h
      exact absurd h (List.not_mem_nil _)
    · rw [h1] at h
      exact absurd h (List.not_mem_nil _)
  unfold apply_edge_patches_with
  rw [if_neg hne]
  constructor
  · exact List.mem_append_right _ (add_edges_of_catalog hadd)
  · exact List.mem_append_right _ (add_edges_of_catalog hadd.symm)

theorem claim_C6_witness :
    (("u", "v", EdgeType.transfer) ∈ [("u", "v", EdgeType.transfer)] ∨
      ("v", "u", EdgeType.transfer) ∈ [("u", "v", EdgeType.transfer)]) ∧
    (("u", "v", EdgeType.transfer) ∈
        apply_edge_patches_with [("u", "v", EdgeType.transfer)]
          [("u", "v", EdgeType.transfer)] [] [] ∧
      ("v", "u", EdgeType.transfer) ∈
        apply_edge_patches_with [("u", "v", EdgeType.transfer)]
          [("u", "v", EdgeType.transfer)] [] []) :=
  ⟨Or.inl (by decide),
   claim_C6 [("u", "v", EdgeType.transfer)] [("u", "v", EdgeType.transfer)]
     [] [] "u" "v" EdgeType.transfer
     (Or.inl (by decide)) (Or.inl (by decide))⟩

/-- C4 (code bug): `schemas.PathResponse` declares `transfers_count` as a
required field, but the construction in `main.shortest_path` does not pass
it — the pydantic required-field check reports exactly that field missing,
so every successful route query raises a `ValidationError` instead of
returning the derived transfer count. -/
theorem claim_C4_bug :
    "transfers_count" ∈ pathresponse_required_fields ∧
    pydantic_missing_fields pathresponse_required_fields
      shortest_path_response_kwargs = ["transfers_count"] := by
  decide

/-! ### Claims about proximity inference -/

theorem transfer_close_symm {a b : VStation} (h : transfer_close a b) :
    transfer_close b a := by
  unfold transfer_close distance_deg_sq at h ⊢
  nlinarith [h]

theorem count_vpair (x y : VStation) (p q : String) (hpq : p ≠ q) :
    List.count ((p, q, true) : VEdge) (vpair_edges x y) =
      if x.line_id ≠ y.line_id ∧ transfer_close x y ∧
          ((x.id = p ∧ y.id = q) ∨ (y.id = p ∧ x.id = q)) then 1 else 0 := by
  unfold vpair_edges
  by_cases h1 : x.line_id = y.line_id
  · rw [if_pos h1, if_neg (fun hc => hc.1 h1)]
    rfl
  · rw [if_neg h1]
    by_cases h2 : transfer_close x y
    · rw [if_pos (decide_eq_true h2)]
      by_cases hm1 : x.id = p ∧ y.id = q
      · have hm2 : ¬(y.id = p ∧ x.id = q) := by
          rintro ⟨hy, hx⟩
          exact hpq (by rw [← hy, hm1.2])
        rw [if_pos ⟨h1, h2, Or.inl hm1⟩]
        have he1 : ((x.id, y.id, true) : VEdge) = (p, q, true) := by
          rw [hm1.1, hm1.2]
        have he2 : ((y.id, x.id, true) : VEdge) ≠ (p, q, true) := by
          intro h
          injection h with h3 h4
          injection h4 with h5 h6
          exact hm2 ⟨h3, h5⟩
        rw [he1]
        simp [List.count_cons, he2]
      · by_cases hm2 : y.id = p ∧ x.id = q
        · rw [if_pos ⟨h1, h2, Or.inr hm2⟩]
          have he2 : ((y.id, x.id, true) : VEdge) = (p, q, true) := by
            rw [hm2.1, hm2.2]
          have he1 : ((x.id, y.id, true) : VEdge) ≠ (p, q, true) := by
            intro h
            injection h with h3 h4
            injection h4 with h5 h6
            exact hm1 ⟨h3, h5⟩
          rw [he2]
          simp [List.count_cons, he1]
        · rw [if_neg (fun hc => hc.2.2.elim hm1 hm2)]
          have he1 : ((x.id, y.id, true) : VEdge) ≠ (p, q, true) := by
            intro h
            injection h with h3 h4
            injection h4 with h5 h6
            exact hm1 ⟨h3, h5⟩
          have he2 : ((y.id, x.id, true) : VEdge) ≠ (p, q, true) := by
            intro h
            injection h with h3 h4
            injection h4 with h5 h6
            exact hm2 ⟨h3, h5⟩
          simp [List.count_cons, he1, he2]
    · rw [if_neg (fun hh => h2 (of_decide_eq_true hh)),
        if_neg (fun hc => h2 hc.2.1)]
      rfl

theorem count_flatMap_vpair (x : VStation) (p q : String) (hpq : p ≠ q) :
    ∀ rest : List VStation,
      List.count ((p, q, true) : VEdge) (rest.flatMap (vpair_edges x)) =
        rest.countP (fun y => decide (x.line_id ≠ y.line_id ∧
          transfer_close x y ∧
          ((x.id = p ∧ y.id = q) ∨ (y.id = p ∧ x.id = q)))) := by
  intro rest
  induction rest with
  | nil => rfl
  | cons y ys ih =>
      rw [List.flatMap_cons, List.count_append, List.countP_cons, ih,
        count_vpair x y p q hpq]
      by_cases hc : x.line_id ≠ y.line_id ∧ transfer_close x y ∧
          ((x.id = p ∧ y.id = q) ∨ (y.id = p ∧ x.id = q))
      · simp [hc, Nat.add_comm]
      · simp [hc]

theorem countP_eq_one_unique {α : Type} (l : List α) (p : α → Bool)
    (y : α) (hy : y ∈ l) (hpy : p y = true)
    (huniq : ∀ z ∈ l, p z = true → z = y) (hnd : l.Nodup) :
    l.countP p = 1 := by
  induction l with
  | nil => simp at hy
  | cons x xs ih =>
      rw [List.countP_cons]
      rcases List.mem_cons.1 hy with rfl | hy'
      · rw [hpy, if_pos rfl]
        have hz : xs.countP p = 0 := by
          rw [List.countP_eq_zero]
          intro z hz hpz
          have := huniq z (List.mem_cons_of_mem _ hz) hpz
          subst this
          exact absurd hz (List.nodup_cons.1 hnd).1
        omega
      · have hxne : p x = false := by
          rcases hpx : p x with _ | _
          · rfl
          · have := huniq x (List.mem_cons_self _ _) hpx
            subst this
            exact absurd hy' (List.nodup_cons.1 hnd).1
        rw [hxne, if_neg Bool.false_ne_true]
        have := ih hy' (fun z hz hpz =>
          huniq z (List.mem_cons_of_mem _ hz) hpz)
          (List.nodup_cons.1 hnd).2
        omega

theorem transfer_edges_mem {l : List VStation} {p q : String}
    (h : ((p, q, true) : VEdge) ∈ transfer_edges l) :
    ∃ x ∈ l, ∃ y ∈ l, x.id = p ∧ y.id = q ∧ x.line_id ≠ y.line_id := by
  induction l with
  | nil => simp [transfer_edges] at h
  | cons x xs ih =>
      rw [transfer_edges] at h
      rcases List.mem_append.1 h with h1 | h1
      · rw [List.mem_flatMap] at h1
        obtain ⟨y, hy, hm⟩ := h1
        unfold vpair_edges at hm
        by_cases hl : x.line_id = y.line_id
        · rw [if_pos hl] at hm
          simp at hm
        · rw [if_neg hl] at hm
          by_cases hc : transfer_close x y
          · rw [if_pos (decide_eq_true hc)] at hm
            rcases List.mem_cons.1 hm with h2 | h2
            · injection h2 with h3 h4
              injection h4 with h5 h6
              exact ⟨x, List.mem_cons_self _ _, y,
                List.mem_cons_of_mem _ hy, h3.symm, h5.symm, hl⟩
            · rcases List.mem_cons.1 h2 with h3 | h3
              · injection h3 with h4 h5
                injection h5 with h6 h7
                exact ⟨y, List.mem_cons_of_mem _ hy, x,
                  List.mem_cons_self _ _, h4.symm, h6.symm,
                  fun he => hl he.symm⟩
              · simp at h3
          · rw [if_neg (fun hh => hc (of_decide_eq_true hh))] at hm
            simp at hm
      · obtain ⟨x', hx', y', hy', h2, h3, h4⟩ := ih h1
        exact ⟨x', List.mem_cons_of_mem _ hx', y',
          List.mem_cons_of_mem _ hy', h2, h3, h4⟩

/-- One directed count of the proximity-inference claim: in a station list
with distinct identifiers, a qualifying cross-line close pair is emitted
exactly once in each direction. -/
theorem transfer_edges_count_one {sts : List VStation} {a b : VStation}
    (hnd : (sts.map VStation.id).Nodup) (ha : a ∈ sts) (hb : b ∈ sts)
    (hline : a.line_id ≠ b.line_id) (hclose : transfer_close a b) :
    List.count ((a.id, b.id, true) : VEdge) (transfer_edges sts) = 1 := by
  have hinj := List.inj_on_of_nodup_map hnd
  have hab : a ≠ b := fun h => hline (h ▸ rfl)
  have hidne : a.id ≠ b.id := fun h => hab (hinj ha hb h)
  induction sts with
  | nil => simp at ha
  | cons x rest ih =>
      have hndr : (rest.map VStation.id).Nodup :=
        (List.nodup_cons.1 (by simpa using hnd)).2
      have hxid : x.id ∉ rest.map VStation.id :=
        (List.nodup_cons.1 (by simpa using hnd)).1
      have hinjr := List.inj_on_of_nodup_map hndr
      rw [transfer_edges, List.count_append,
        count_flatMap_vpair x a.id b.id hidne rest]
      rcases List.mem_cons.1 ha with hax | ha'
      · -- the head is `a`; `b` occurs exactly once in the tail
        have hxa : x.id = a.id := by rw [hax]
        have hbr : b ∈ rest := by
          rcases List.mem_cons.1 hb with h | h
          · exact absurd (hax.trans h.symm) hab
          · exact h
        have hcnt1 : rest.countP (fun y => decide (x.line_id ≠ y.line_id ∧
            transfer_close x y ∧
            ((x.id = a.id ∧ y.id = b.id) ∨
              (y.id = a.id ∧ x.id = b.id)))) = 1 := by
          refine countP_eq_one_unique rest _ b hbr ?_ ?_
            (List.Nodup.of_map _ hndr)
          · refine decide_eq_true ⟨?_, ?_, Or.inl ⟨hxa, rfl⟩⟩
            · rw [← hax]; exact hline
            · rw [← hax]; exact hclose
          · intro z hz hpz
            have hc := of_decide_eq_true hpz
            rcases hc.2.2 with ⟨-, hzb⟩ | ⟨hza, hxb⟩
            · exact hinjr hz hbr hzb
            · exact absurd (hxa.symm.trans hxb) hidne
        have hcnt0 : List.count ((a.id, b.id, true) : VEdge)
            (transfer_edges rest) = 0 := by
          rw [List.count_eq_zero]
          intro hmem
          obtain ⟨x', hx', -, -, h2, -, -⟩ := transfer_edges_mem hmem
          rw [← hxa] at h2
          exact hxid (h2 ▸ List.mem_map_of_mem VStation.id hx')
        omega
      · rcases List.mem_cons.1 hb with hbx | hb'
        · -- the head is `b`; `a` occurs exactly once in the tail
          have hxb : x.id = b.id := by rw [hbx]
          have hcnt1 : rest.countP (fun y =>
              decide (x.line_id ≠ y.line_id ∧ transfer_close x y ∧
              ((x.id = a.id ∧ y.id = b.id) ∨
                (y.id = a.id ∧ x.id = b.id)))) = 1 := by
            refine countP_eq_one_unique rest _ a ha' ?_ ?_
              (List.Nodup.of_map _ hndr)
            · refine decide_eq_true ⟨?_, ?_, Or.inr ⟨rfl, hxb⟩⟩
              · rw [← hbx]; exact fun h => hline h.symm
              · rw [← hbx]; exact transfer_close_symm hclose
            · intro z hz hpz
              have hc := of_decide_eq_true hpz
              rcases hc.2.2 with ⟨hxa2, -⟩ | ⟨hza, -⟩
              · exact absurd (hxb.symm.trans hxa2) hidne.symm
              · exact hinjr hz ha' hza
          have hcnt0 : List.count ((a.id, b.id, true) : VEdge)
              (transfer_edges rest) = 0 := by
            rw [List.count_eq_zero]
            intro hmem
            obtain ⟨-, -, y', hy', -, h3, -⟩ := transfer_edges_mem hmem
            rw [← hxb] at h3
            exact hxid (h3 ▸ List.mem_map_of_mem VStation.id hy')
          omega
        · -- both in the tail
          have hcnt0 : rest.countP (fun y =>
              decide (x.line_id ≠ y.line_id ∧ transfer_close x y ∧
              ((x.id = a.id ∧ y.id = b.id) ∨
                (y.id = a.id ∧ x.id = b.id)))) = 0 := by
            rw [List.countP_eq_zero]
            intro z hz hpz
            have hc := of_decide_eq_true hpz
            rcases hc.2.2 with ⟨hxa2, -⟩ | ⟨-, hxb2⟩
            · exact hxid (hxa2 ▸ List.mem_map_of_mem VStation.id ha')
            · exact hxid (hxb2 ▸ List.mem_map_of_mem VStation.id hb')
          have := ih hndr ha' hb' hinjr
          omega

/-- C8: in the proximity-based transfer inference over a station list with
distinct identifiers, a pair of stations on different lines strictly
within the threshold is emitted as exactly one bidirectional transfer-edge
pair (each directed edge once), and a pair of stations on the same line is
never emitted regardless of distance. -/
theorem claim_C8 {sts : List VStation} {a b : VStation}
    (hnd : (sts.map VStation.id).Nodup) (ha : a ∈ sts) (hb : b ∈ sts) :
    (a.line_id ≠ b.line_id → transfer_close a b →
      List.count ((a.id, b.id, true) : VEdge) (transfer_edges sts) = 1 ∧
      List.count ((b.id, a.id, true) : VEdge) (transfer_edges sts) = 1) ∧
    (a.line_id = b.line_id →
      List.count ((a.id, b.id, true) : VEdge) (transfer_edges sts) = 0 ∧
      List.count ((b.id, a.id, true) : VEdge) (transfer_edges sts) = 0) := by
  have hinj := List.inj_on_of_nodup_map hnd
  constructor
  · intro hline hclose
    exact ⟨transfer_edges_count_one hnd ha hb hline hclose,
      transfer_edges_count_one hnd hb ha (fun h => hline h.symm)
        (transfer_close_symm hclose)⟩
  · intro hline
    have hz : ∀ p q : VStation, p ∈ sts → q ∈ sts →
        p.line_id = q.line_id →
        List.count ((p.id, q.id, true) : VEdge) (transfer_edges sts) = 0 := by
      intro p q hp hq hpq
      rw [List.count_eq_zero]
      intro hmem
      obtain ⟨x', hx', y', hy', h2, h3, h4⟩ := transfer_edges_mem hmem
      have hxp : x' = p := hinj hx' hp h2
      have hyq : y' = q := hinj hy' hq h3
      subst hxp
      subst hyq
      exact h4 hpq
    exact ⟨hz a b ha hb hline, hz b a hb ha hline.symm⟩

theorem claim_C8_witness :
    (([VStation.mk "s1" "n1" 0 0 "L1" "Line1" "fff",
       VStation.mk "s2" "n2" 0 0 "L2" "Line2" "eee"] : List VStation).map
          VStation.id).Nodup ∧
    (List.count (("s1", "s2", true) : VEdge)
      (transfer_edges
        [VStation.mk "s1" "n1" 0 0 "L1" "Line1" "fff",
         VStation.mk "s2" "n2" 0 0 "L2" "Line2" "eee"]) = 1 ∧
     List.count (("s2", "s1", true) : VEdge)
      (transfer_edges
        [VStation.mk "s1" "n1" 0 0 "L1" "Line1" "fff",
         VStation.mk "s2" "n2" 0 0 "L2" "Line2" "eee"]) = 1) :=
  ⟨by decide,
   (@claim_C8
       [VStation.mk "s1" "n1" 0 0 "L1" "Line1" "fff",
        VStation.mk "s2" "n2" 0 0 "L2" "Line2" "eee"]
       (VStation.mk "s1" "n1" 0 0 "L1" "Line1" "fff")
       (VStation.mk "s2" "n2" 0 0 "L2" "Line2" "eee")
       (by decide) (List.mem_cons_self _ _)
       (List.mem_cons_of_mem _ (List.mem_cons_self _ _))).1
     (by decide)
     (by norm_num [transfer_close, distance_deg_sq, TRANSFER_THRESHOLD])⟩

end FastMetro
